import Mathlib

/-!
Verification of the Oddball CS pipeline core: the delta-merge engine
(`apply_delta` in utils.py), the referential-integrity resolver
(`handle_missing` in pipeline.py), the timestamp-normalization step
(pipeline.py, step 3) and the report aggregator (`build_report` in
report.py).

Tables (pandas DataFrames) are modeled shallowly: a table is a list of
column labels together with a list of rows, each row a list of cells.
A cell is either a missing value (`Val.na`, modeling pandas NaN), a
string, or an integer.  Reading a cell outside a row's extent, or from
an absent column after label alignment, yields `Val.na`, exactly as
pandas materializes NaN when concatenation aligns frames on the union
of their column labels.  Points where pandas raises (KeyError on a
missing column, ValueError on schema/validation problems) are modeled
with `Except`.
-/

namespace Oddball

/-- A cell value. `na` models pandas NaN / a missing value; numeric CSV
cells are modeled as integers. -/
inductive Val where
  | na : Val
  | s : String → Val
  | i : Int → Val
deriving Repr, DecidableEq

/-- `fillna('Unknown')` on a single cell. -/
def fillCell : Val → Val
  | .na => .s "Unknown"
  | v => v

/-- Python `str(...)` as applied by `.astype(str)`: NaN renders as `"nan"`. -/
def pyStr : Val → String
  | .na => "nan"
  | .s v => v
  | .i n => toString n

/-- A DataFrame: column labels plus rows of cells (row-major). -/
structure Table where
  cols : List String
  rows : List (List Val)
deriving Repr, DecidableEq

/-- Index of the first column with a given label, if any. -/
def idx? (c : String) : List String → Option Nat
  | [] => none
  | c' :: cs => if c' = c then some 0 else (idx? c cs).map (· + 1)

/-- The cell of row `r` in the column labeled `c`; NaN when the label is
absent or the row is too short. -/
def cellAt (cols : List String) (r : List Val) (c : String) : Val :=
  match idx? c cols with
  | some k => r.getD k .na
  | none => .na

/-- A column of the table as a list of cell values (pandas `df[c]`). -/
def colVals (t : Table) (c : String) : List Val :=
  t.rows.map (fun r => cellAt t.cols r c)

/-- Rectangularity: every row has exactly one cell per column.  Real
DataFrames satisfy this by construction. -/
def Table.WF (t : Table) : Prop := ∀ r ∈ t.rows, r.length = t.cols.length

instance (t : Table) : Decidable t.WF := List.decidableBAll _ _

/-- Drop the cells of the dropped column from one row
(`df.drop(columns=[c])`, row part). -/
def dropColRow (cols : List String) (c : String) (r : List Val) : List Val :=
  ((cols.zip r).filter (fun p => decide (p.1 ≠ c))).map (·.2)

/-- `df.drop(columns=[c])`. -/
def dropCol (t : Table) (c : String) : Table :=
  ⟨t.cols.filter (fun n => decide (n ≠ c)), t.rows.map (dropColRow t.cols c)⟩

/-- Overwrite the cell of column `c` in row `r` (no-op when the label is
absent; `setCol` only calls it with the label present). -/
def setCell (cols : List String) (c : String) (v : Val) (r : List Val) : List Val :=
  match idx? c cols with
  | some k => r.set k v
  | none => r

/-- `df[c] = vs`: replace the column when the label exists, else append a
new column on the right. -/
def setCol (t : Table) (c : String) (vs : List Val) : Table :=
  match idx? c t.cols with
  | some k => ⟨t.cols, List.zipWith (fun r v => r.set k v) t.rows vs⟩
  | none => ⟨t.cols ++ [c], List.zipWith (fun r v => r ++ [v]) t.rows vs⟩

/-- Re-express a row over a new list of column labels, by label lookup
(pandas concat alignment for the second frame). -/
def realign (oldCols newCols : List String) (r : List Val) : List Val :=
  newCols.map (cellAt oldCols r)

/-- Pad a row with `k` NaN cells on the right (pandas concat alignment
for the first frame, whose labels are a prefix of the union). -/
def padRow (k : Nat) (r : List Val) : List Val := r ++ List.replicate k Val.na

/-- `pd.concat([t1, t2], ignore_index=True)`: columns are the union
(t1's labels first, then t2's new labels); t1's rows are padded with
NaN on the right, t2's rows are aligned by label. -/
def concatTables (t1 t2 : Table) : Table :=
  let newCols := t1.cols ++ t2.cols.filter (fun c => decide (c ∉ t1.cols))
  ⟨newCols,
    t1.rows.map (padRow (newCols.length - t1.cols.length)) ++
    t2.rows.map (realign t2.cols newCols)⟩

/-- `df.fillna('Unknown')`. -/
def fillna (t : Table) : Table := ⟨t.cols, t.rows.map (List.map fillCell)⟩

/-- `df[~df[id].isin(vs)]`: drop the rows whose identity cell is in `vs`. -/
def delRows (t : Table) (id : String) (vs : List Val) : Table :=
  ⟨t.cols, t.rows.filter (fun r => decide (cellAt t.cols r id ∉ vs))⟩

/-- The closed action taxonomy (DEFAULT_ACTIONS in utils.py). -/
def validActions : List String := ["add", "update", "delete"]

/-- Python `str.lower()` (per-character lowering; Lean's own
`String.toLower` is byte-position recursion the kernel cannot unfold,
so the equivalent list-of-characters form is used). -/
def pyLower (s : String) : String := ⟨s.data.map Char.toLower⟩

/-- Python `str.strip()`: drop whitespace from both ends. -/
def pyStrip (s : String) : String :=
  ⟨((s.data.dropWhile Char.isWhitespace).reverse.dropWhile Char.isWhitespace).reverse⟩

/-- Normalization of one action value:
`.astype(str).str.lower().str.strip()`. -/
def normAct (v : Val) : String := pyStrip (pyLower (pyStr v))

/-- The delta table with its action column replaced by the normalized
string values (utils.py line 71). -/
def normalizeActions (delta : Table) : Table :=
  setCol delta "action" ((colVals delta "action").map (fun v => .s (normAct v)))

/-- The set of invalid action values found in a delta batch
(`set(delta['action'].unique()) - DEFAULT_ACTIONS`); deduplicated, so it
lists each offending value once. -/
def invalidActions (delta : Table) : List String :=
  (((colVals delta "action").map normAct).dedup).filter (fun a => decide (a ∉ validActions))

/-- The sub-table of delta rows carrying a given (already normalized)
action value. -/
def actionRows (delta2 : Table) (a : String) : Table :=
  ⟨delta2.cols, delta2.rows.filter (fun r => decide (cellAt delta2.cols r "action" = .s a))⟩

/-- `delta[delta["action"] == "update"].drop(columns=["action"])`. -/
def updatesOf (delta : Table) : Table :=
  dropCol (actionRows (normalizeActions delta) "update") "action"

/-- `delta[delta["action"] == "add"].drop(columns=["action"])`. -/
def addsOf (delta : Table) : Table :=
  dropCol (actionRows (normalizeActions delta) "add") "action"

/-- `delta[delta["action"] == "delete"][id_col].unique().tolist()`. -/
def deletesOf (delta : Table) (id : String) : List Val :=
  (colVals (actionRows (normalizeActions delta) "delete") id).dedup

/-- Errors raised by the merge engine and the resolver.  The source
raises ValueError / KeyError; the spec's taxonomy distinguishes the
missing-action-column case (SchemaError) from the invalid-action case
(ValidationError), and pandas raises KeyError when a required column
label is absent at a selection point. -/
inductive MergeError where
  | schema : MergeError
  | validation : List String → MergeError
  | key : String → MergeError
deriving Repr, DecidableEq

/-- The Delete phase of `apply_delta` (utils.py lines 86-87): a no-op
when no delete identities were collected, otherwise drops matching rows
(pandas raises KeyError when the identity column is absent). -/
def stepDelete (id : String) (deletes : List Val) (out : Table) : Except MergeError Table :=
  if deletes.isEmpty then .ok out
  else if id ∈ out.cols then .ok (delRows out id deletes)
  else .error (.key id)

/-- The shared Update/Add phase of `apply_delta` (utils.py lines 90-99):
drop the working rows whose identity collides with the block, append the
block's rows, and fill every NaN with "Unknown".  A no-op when the block
is empty. -/
def stepUpsert (id : String) (block : Table) (out : Table) : Except MergeError Table :=
  if block.rows.isEmpty then .ok out
  else if id ∉ out.cols then .error (.key id)
  else if id ∉ block.cols then .error (.key id)
  else .ok (fillna (concatTables (delRows out id (colVals block id)) block))

/-- `apply_delta(base_df, delta_df, id_col)` from utils.py: validate the
action column, split the batch by action, then fold Delete, Update, Add
over the baseline.  (`normalizeActions` keeps the column labels of
`delta_df`, so the line-81 KeyError check reads them directly.) -/
def apply_delta (base_df delta_df : Table) (id_col : String) : Except MergeError Table :=
  if "action" ∉ delta_df.cols then .error .schema
  else if ¬ (invalidActions delta_df).isEmpty then .error (.validation (invalidActions delta_df))
  else if id_col ∉ delta_df.cols then .error (.key id_col)
  else do
    let out1 ← stepDelete id_col (deletesOf delta_df id_col) base_df
    let out2 ← stepUpsert id_col (updatesOf delta_df) out1
    let out3 ← stepUpsert id_col (addsOf delta_df) out2
    pure out3

/-- The effect on one row of a resolver assignment: rows selected by the
mask `~t[c].isin(valid)` get their `c` cell overwritten with "Unknown". -/
def resolveRow (cols : List String) (c : String) (valid : List Val) (r : List Val) : List Val :=
  if cellAt cols r c ∈ valid then r else setCell cols c (.s "Unknown") r

/-- One resolver assignment (pipeline.py lines 67-69):
`t.loc[~t[c].isin(valid), c] = "Unknown"`. -/
def resolveCol (t : Table) (c : String) (valid : List Val) : Table :=
  ⟨t.cols, t.rows.map (resolveRow t.cols c valid)⟩

/-- `handle_missing(interactions, agents, contact_centers,
service_categories)` from pipeline.py: build each dimension's identity
set, then rewrite the fact table's unresolved foreign keys to "Unknown",
one column at a time.  Selecting a column that is absent raises
(KeyError), modeled as `.error (.key c)`. -/
def handle_missing (interactions agents contact_centers service_categories : Table) :
    Except MergeError Table :=
  if "agent_id" ∉ agents.cols then .error (.key "agent_id")
  else if "contact_center_id" ∉ contact_centers.cols then .error (.key "contact_center_id")
  else if "category_id" ∉ service_categories.cols then .error (.key "category_id")
  else
    let final_agents := (colVals agents "agent_id").dedup
    let final_contact_centers := (colVals contact_centers "contact_center_id").dedup
    let final_service_categories := (colVals service_categories "category_id").dedup
    if "agent_id" ∉ interactions.cols then .error (.key "agent_id")
    else
      let t1 := resolveCol interactions "agent_id" final_agents
      if "contact_center_id" ∉ t1.cols then .error (.key "contact_center_id")
      else
        let t2 := resolveCol t1 "contact_center_id" final_contact_centers
        if "category_id" ∉ t2.cols then .error (.key "category_id")
        else .ok (resolveCol t2 "category_id" final_service_categories)

/-! ## Timestamp normalization (pipeline.py, step 3)

The actual conversion (`pd.to_datetime(...).dt.tz_convert("US/Eastern")`)
is an external pandas collaborator; it is abstracted as a fallible
function on the column's cell values.  What the pipeline itself
contributes — the four recognized columns, tolerating absence, and the
per-column try/except that keeps a failing column unconverted — is
modeled exactly. -/

/-- One `if col in columns: try ... except` block of pipeline.py
lines 157-179. -/
def convertColumn (conv : List Val → Except String (List Val)) (t : Table) (c : String) :
    Table :=
  if c ∈ t.cols then
    match conv (colVals t c) with
    | .ok vs => setCol t c vs
    | .error _ => t
  else t

/-- The four recognized timestamp columns, in source order. -/
def tsCols : List String :=
  ["timestamp", "interaction_start", "agent_resolution_timestamp", "interaction_end"]

/-- Step 3 of `process` (pipeline.py lines 157-179): convert each
recognized timestamp column that is present, catching a conversion
failure per column. -/
def convert_timestamps (conv : List Val → Except String (List Val)) (t : Table) : Table :=
  convertColumn conv
    (convertColumn conv
      (convertColumn conv
        (convertColumn conv t "timestamp")
        "interaction_start")
      "agent_resolution_timestamp")
    "interaction_end"

/-! ## Report aggregation (report.py) -/

/-- Errors raised by `build_report`: the explicit ValueError for a
missing `interaction_end` column (the spec's SchemaError), and pandas
KeyError for other absent columns used by the merge/groupby. -/
inductive ReportError where
  | schema : ReportError
  | key : String → ReportError
deriving Repr, DecidableEq

/-- One row of the support report. -/
structure ReportRow where
  month : Val
  contact_center_name : Val
  department : Val
  total_interactions : Nat
  total_calls : Int
  total_call_duration : Int
deriving Repr, DecidableEq

/-- Numeric reading of a cell for pandas `sum`: integers count, NaN
(skipped by pandas) and non-numeric cells contribute zero. -/
def numOf : Val → Int
  | .i n => n
  | _ => 0

/-- `interactions["channel"].str.lower().eq("phone").astype(int)` on one
cell: the `.str` accessor yields NaN on non-strings, and `eq` maps NaN
to False. -/
def isCallVal : Val → Val
  | .s c => if pyLower c = "phone" then .i 1 else .i 0
  | _ => .i 0

/-- `interactions["interaction_end"].astype(str).str[:7]` on one cell. -/
def monthVal (v : Val) : Val := .s ⟨(pyStr v).data.take 7⟩

/-- `t.merge(dim[[key, attr]], on=key, how="left")`: every left row is
kept; rows are repeated once per matching dimension row (NaN for the
joined attribute when there is no match); when the attribute label
already exists on the left, pandas disambiguates with `_x`/`_y`
suffixes. -/
def mergeLeftAttr (t dim : Table) (key attr : String) : Except ReportError Table :=
  if key ∉ dim.cols then .error (.key key)
  else if attr ∉ dim.cols then .error (.key attr)
  else if key ∉ t.cols then .error (.key key)
  else
    let leftCols := if attr ∈ t.cols
      then t.cols.map (fun c => if c = attr then c ++ "_x" else c)
      else t.cols
    let newAttr := if attr ∈ t.cols then attr ++ "_y" else attr
    .ok ⟨leftCols ++ [newAttr],
      t.rows.flatMap (fun r =>
        let ms := (dim.rows.filter
            (fun dr => decide (cellAt dim.cols dr key = cellAt t.cols r key))).map
          (fun dr => cellAt dim.cols dr attr)
        if ms.isEmpty then [r ++ [Val.na]] else ms.map (fun v => r ++ [v]))⟩

/-- The (month, contact_center_name, department) grouping key of a row. -/
def groupKey (cols : List String) (r : List Val) : Val × Val × Val :=
  (cellAt cols r "month", cellAt cols r "contact_center_name", cellAt cols r "department")

/-- `groupby(["month", "contact_center_name", "department"],
dropna=False).agg(...)`: one output row per distinct key (null keys form
groups too); `total_interactions` counts non-null `interaction_id`
values, the other two aggregates sum their column.  (pandas emits groups
in sorted key order; the output order is irrelevant to every property
proved here, so groups are listed in a deduplication order.) -/
def aggregate (t : Table) : List ReportRow :=
  ((t.rows.map (groupKey t.cols)).dedup).map (fun k =>
    let grp := t.rows.filter (fun r => decide (groupKey t.cols r = k))
    { month := k.1
      contact_center_name := k.2.1
      department := k.2.2
      total_interactions := grp.countP (fun r => decide (cellAt t.cols r "interaction_id" ≠ .na))
      total_calls := (grp.map (fun r => numOf (cellAt t.cols r "is_call"))).sum
      total_call_duration :=
        (grp.map (fun r => numOf (cellAt t.cols r "call_duration_minutes"))).sum })

/-- `interactions["month"] = interactions["interaction_end"].astype(str).str[:7]`. -/
def withMonth (interactions : Table) : Table :=
  setCol interactions "month" ((colVals interactions "interaction_end").map monthVal)

/-- `interactions["is_call"] = interactions["channel"].str.lower().eq("phone").astype(int)`. -/
def withCall (t : Table) : Table :=
  setCol t "is_call" ((colVals t "channel").map isCallVal)

/-- `build_report` from report.py, applied to the three already-loaded
final tables (file I/O is an external collaborator): derive the month
bucket and the call indicator, left-join the two dimension attributes,
then group and aggregate. -/
def build_report (contact_centers service_categories interactions : Table) :
    Except ReportError (List ReportRow) :=
  if "interaction_end" ∉ interactions.cols then .error .schema
  else if "channel" ∉ (withMonth interactions).cols then .error (.key "channel")
  else do
    let t3 ← mergeLeftAttr (withCall (withMonth interactions)) contact_centers
      "contact_center_id" "contact_center_name"
    let t4 ← mergeLeftAttr t3 service_categories "category_id" "department"
    if "month" ∉ t4.cols then throw (.key "month")
    else if "contact_center_name" ∉ t4.cols then throw (.key "contact_center_name")
    else if "department" ∉ t4.cols then throw (.key "department")
    else if "interaction_id" ∉ t4.cols then throw (.key "interaction_id")
    else if "is_call" ∉ t4.cols then throw (.key "is_call")
    else if "call_duration_minutes" ∉ t4.cols then throw (.key "call_duration_minutes")
    else pure (aggregate t4)

/-- Non-null identity cells: pandas NaN identities are garbage data the
merge's `fillna` would silently rewrite to the string "Unknown". -/
def IdsDefined (t : Table) (c : String) : Prop := ∀ v ∈ colVals t c, v ≠ Val.na

instance (t : Table) (c : String) : Decidable (IdsDefined t c) := List.decidableBAll _ _

/-! ## Basic lemmas about column lookup -/

theorem idx?_eq_none_iff {c : String} {l : List String} : idx? c l = none ↔ c ∉ l := by
  induction l with
  | nil => simp [idx?]
  | cons c' cs ih =>
    by_cases h : c' = c
    · simp [idx?, h]
    · simp only [idx?, if_neg h, Option.map_eq_none', ih, List.mem_cons]
      constructor
      · rintro hn (rfl | hm)
        · exact h rfl
        · exact hn hm
      · intro hn
        exact fun hm => hn (Or.inr hm)

theorem idx?_isSome_of_mem {c : String} {l : List String} (h : c ∈ l) :
    ∃ k, idx? c l = some k := by
  rcases ho : idx? c l with _ | k
  · exact absurd (idx?_eq_none_iff.mp ho) (by simpa using h)
  · exact ⟨k, rfl⟩

theorem idx?_bound {c : String} {l : List String} {k : Nat} (h : idx? c l = some k) :
    k < l.length := by
  induction l generalizing k with
  | nil => simp [idx?] at h
  | cons c' cs ih =>
    by_cases hc : c' = c
    · simp only [idx?, if_pos hc, Option.some.injEq] at h
      simp only [List.length_cons]
      omega
    · simp only [idx?, if_neg hc, Option.map_eq_some'] at h
      obtain ⟨j, hj, rfl⟩ := h
      have := ih hj
      simp only [List.length_cons]
      omega

theorem idx?_getElem {c : String} {l : List String} {k : Nat} (h : idx? c l = some k) :
    l[k]? = some c := by
  induction l generalizing k with
  | nil => simp [idx?] at h
  | cons c' cs ih =>
    by_cases hc : c' = c
    · simp only [idx?, if_pos hc, Option.some.injEq] at h
      subst h
      simp [hc]
    · simp only [idx?, if_neg hc, Option.map_eq_some'] at h
      obtain ⟨j, hj, rfl⟩ := h
      simpa using ih hj

theorem idx?_append_left {c : String} {l1 l2 : List String} {k : Nat}
    (h : idx? c l1 = some k) : idx? c (l1 ++ l2) = some k := by
  induction l1 generalizing k with
  | nil => simp [idx?] at h
  | cons c' cs ih =>
    by_cases hc : c' = c
    · simp only [idx?, if_pos hc, Option.some.injEq] at h
      simp [idx?, hc, h]
    · simp only [idx?, if_neg hc, Option.map_eq_some'] at h
      obtain ⟨j, hj, rfl⟩ := h
      simp [idx?, hc, ih hj]

theorem cellAt_of_not_mem {cols : List String} {r : List Val} {c : String} (h : c ∉ cols) :
    cellAt cols r c = .na := by
  simp [cellAt, idx?_eq_none_iff.mpr h]

theorem cellAt_nil (cols : List String) (c : String) : cellAt cols [] c = .na := by
  unfold cellAt
  rcases idx? c cols with _ | k <;> simp

/-- Reading a cell after appending columns on the right, when the label
is already present on the left: the row padding (whether NaN padding or
any appended cells beyond the row's extent) is invisible. -/
theorem cellAt_append_cols {l1 l2 : List String} {r r2 : List Val} {c : String}
    (hmem : c ∈ l1) (hr : r.length ≥ l1.length) :
    cellAt (l1 ++ l2) (r ++ r2) c = cellAt l1 r c := by
  obtain ⟨k, hk⟩ := idx?_isSome_of_mem hmem
  have hkb : k < l1.length := idx?_bound hk
  have hkr : k < r.length := lt_of_lt_of_le hkb hr
  simp only [cellAt, idx?_append_left hk, hk]
  rw [List.getD_append _ _ _ _ hkr]

/-- Reading a padded row (`padRow`): the padding cells are NaN, and so is
an out-of-range read, so the pad never changes any cell. -/
theorem cellAt_pad {l1 l2 : List String} {r : List Val} {c : String} {k : Nat}
    (hmem : c ∈ l1) :
    cellAt (l1 ++ l2) (padRow k r) c = cellAt l1 r c := by
  obtain ⟨j, hj⟩ := idx?_isSome_of_mem hmem
  simp only [cellAt, idx?_append_left hj, hj, padRow]
  by_cases hjr : j < r.length
  · rw [List.getD_append _ _ _ _ hjr]
  · rw [List.getD_eq_getElem?_getD, List.getD_eq_getElem?_getD]
    push_neg at hjr
    rw [List.getElem?_append_right hjr]
    rcases Nat.lt_or_ge (j - r.length) k with hlt | hge
    · simp [List.getElem?_replicate, hlt, List.getElem?_len_le hjr]
    · rw [List.getElem?_len_le (by simpa using hge), List.getElem?_len_le hjr]

/-- Reading a realigned row recovers the original cell, for any label of
the new column list. -/
theorem cellAt_realign {oldCols newCols : List String} {r : List Val} {c : String}
    (hmem : c ∈ newCols) :
    cellAt newCols (realign oldCols newCols r) c = cellAt oldCols r c := by
  obtain ⟨k, hk⟩ := idx?_isSome_of_mem hmem
  have hkb : k < newCols.length := idx?_bound hk
  have hgc : newCols[k] = c := by
    have := idx?_getElem hk
    rwa [List.getElem?_eq_getElem hkb, Option.some.injEq] at this
  simp only [cellAt, hk, realign]
  rw [List.getD_eq_getElem?_getD, List.getElem?_map, List.getElem?_eq_getElem hkb]
  simp only [Option.map_some', Option.getD_some, hgc]
  rfl

/-- `fillna` on a row of full length: each cell is the `fillCell` of the
original. -/
theorem cellAt_fill_of_full {cols : List String} {r : List Val} {c : String}
    (hmem : c ∈ cols) (hr : r.length ≥ cols.length) :
    cellAt cols (r.map fillCell) c = fillCell (cellAt cols r c) := by
  obtain ⟨k, hk⟩ := idx?_isSome_of_mem hmem
  have hkr : k < r.length := lt_of_lt_of_le (idx?_bound hk) hr
  simp only [cellAt, hk]
  rw [List.getD_eq_getElem?_getD, List.getD_eq_getElem?_getD,
    List.getElem?_map, List.getElem?_eq_getElem hkr]
  simp

/-- `fillna` never changes a non-NaN cell (no length assumption: an
out-of-range read is NaN on both sides). -/
theorem cellAt_fill_of_ne_na {cols : List String} {r : List Val} {c : String}
    (h : cellAt cols r c ≠ .na) :
    cellAt cols (r.map fillCell) c = cellAt cols r c := by
  simp only [cellAt] at h ⊢
  rcases hk : idx? c cols with _ | k
  · simp only [hk] at h
    exact absurd rfl h
  · simp only [hk] at h ⊢
    simp only [List.getD_eq_getElem?_getD] at h ⊢
    rw [List.getElem?_map]
    rcases hv : r[k]? with _ | v
    · rw [hv] at h
      exact absurd rfl h
    · rw [hv] at h
      simp only [Option.map_some', Option.getD_some] at h ⊢
      cases v with
      | na => exact absurd rfl h
      | s v => rfl
      | i n => rfl

/-- Overwriting one column's cell leaves every other label's cell
unchanged. -/
theorem cellAt_set_ne {cols : List String} {r : List Val} {c c' : String} {k : Nat} {v : Val}
    (hk : idx? c cols = some k) (hne : c' ≠ c) :
    cellAt cols (r.set k v) c' = cellAt cols r c' := by
  rcases hj : idx? c' cols with _ | j
  · simp [cellAt, hj]
  · have hjk : j ≠ k := by
      intro h
      subst h
      have h1 := idx?_getElem hk
      have h2 := idx?_getElem hj
      rw [h1] at h2
      exact hne (Option.some.injEq _ _ ▸ h2).symm
    simp only [cellAt, hj]
    rw [List.getD_eq_getElem?_getD, List.getD_eq_getElem?_getD,
      List.getElem?_set_ne (by omega)]

theorem cellAt_setCell_ne {cols : List String} {r : List Val} {c c' : String} {v : Val}
    (hne : c' ≠ c) :
    cellAt cols (setCell cols c v r) c' = cellAt cols r c' := by
  rw [setCell]
  rcases hk : idx? c cols with _ | k
  · rfl
  · exact cellAt_set_ne hk hne

/-- Overwriting a present column's cell (within the row's extent) is
read back. -/
theorem cellAt_setCell_self {cols : List String} {r : List Val} {c : String} {v : Val}
    (hmem : c ∈ cols) (hr : r.length ≥ cols.length) :
    cellAt cols (setCell cols c v r) c = v := by
  obtain ⟨k, hk⟩ := idx?_isSome_of_mem hmem
  have hkr : k < r.length := lt_of_lt_of_le (idx?_bound hk) hr
  simp only [setCell, cellAt, hk]
  rw [List.getD_eq_getElem?_getD, List.getElem?_set_self']
  simp [List.getElem?_eq_getElem hkr]

/-! ## Resolver lemmas -/

theorem resolveCol_cols (t : Table) (c : String) (valid : List Val) :
    (resolveCol t c valid).cols = t.cols := rfl

theorem resolveRow_length (cols : List String) (c : String) (valid : List Val) (r : List Val) :
    (resolveRow cols c valid r).length = r.length := by
  rw [resolveRow]
  split
  · rfl
  · rw [setCell]
    rcases idx? c cols with _ | k
    · rfl
    · exact List.length_set ..

theorem resolveRow_cell_ne {cols : List String} {c c' : String} {valid : List Val}
    {r : List Val} (hne : c' ≠ c) :
    cellAt cols (resolveRow cols c valid r) c' = cellAt cols r c' := by
  rw [resolveRow]
  split
  · rfl
  · exact cellAt_setCell_ne hne

theorem resolveRow_cell_self {cols : List String} {c : String} {valid : List Val}
    {r : List Val} (hmem : c ∈ cols) (hr : r.length ≥ cols.length) :
    cellAt cols (resolveRow cols c valid r) c ∈ valid ∨
      cellAt cols (resolveRow cols c valid r) c = .s "Unknown" := by
  rw [resolveRow]
  split_ifs with h
  · exact Or.inl h
  · exact Or.inr (cellAt_setCell_self hmem hr)

theorem resolveRow_of_mem {cols : List String} {c : String} {valid : List Val}
    {r : List Val} (h : cellAt cols r c ∈ valid) :
    resolveRow cols c valid r = r := by
  rw [resolveRow, if_pos h]

theorem resolveRow_cell_of_not_mem {cols : List String} {c : String} {valid : List Val}
    {r : List Val} (hmem : c ∈ cols) (hr : r.length ≥ cols.length)
    (h : cellAt cols r c ∉ valid) :
    cellAt cols (resolveRow cols c valid r) c = .s "Unknown" := by
  rw [resolveRow, if_neg h]
  exact cellAt_setCell_self hmem hr

/-- Inversion of a successful `handle_missing` run: all the column
checks passed and the result is the three-fold resolution. -/
theorem handle_missing_ok_inv {i a c s out : Table}
    (h : handle_missing i a c s = .ok out) :
    "agent_id" ∈ a.cols ∧ "contact_center_id" ∈ c.cols ∧ "category_id" ∈ s.cols ∧
    "agent_id" ∈ i.cols ∧ "contact_center_id" ∈ i.cols ∧ "category_id" ∈ i.cols ∧
    out = resolveCol
      (resolveCol (resolveCol i "agent_id" ((colVals a "agent_id").dedup))
        "contact_center_id" ((colVals c "contact_center_id").dedup))
      "category_id" ((colVals s "category_id").dedup) := by
  rw [handle_missing] at h
  simp only [resolveCol_cols] at h
  split_ifs at h with h1 h2 h3 h4 h5 h6 <;>
    first
      | exact Except.noConfusion h
      | (rw [Except.ok.injEq] at h
         exact ⟨h1, h2, h3, h4, h5, h6, h.symm⟩)

/-! ## Shared concrete tables for witnesses (the spec's scenario: a fact
row whose `contact_center_id` "C9" is not present in the merged contact
centers). -/

def exInteractions : Table :=
  ⟨["interaction_id", "agent_id", "contact_center_id", "category_id"],
    [[.s "I1", .s "A1", .s "C9", .s "K1"]]⟩

def exAgents : Table := ⟨["agent_id"], [[.s "A1"]]⟩

def exContactCenters : Table := ⟨["contact_center_id"], [[.s "C1"]]⟩

def exCategories : Table := ⟨["category_id"], [[.s "K1"]]⟩

/-- The resolved fact table for the scenario: the stale "C9" reference
has been rewritten to "Unknown". -/
def exResolved : Table :=
  ⟨["interaction_id", "agent_id", "contact_center_id", "category_id"],
    [[.s "I1", .s "A1", .s "Unknown", .s "K1"]]⟩

/-! ## C9: resolver totality -/

/-- C9 counterexample: `handle_missing` is not total over arbitrary
tables — when a dimension table lacks its identity column (here: empty
`agents`), selecting `agents["agent_id"]` raises (KeyError), so the
claim "always succeeds, never raises" fails as stated. -/
theorem C9_counterexample :
    handle_missing (Table.mk [] []) (Table.mk [] []) (Table.mk [] []) (Table.mk [] [])
      = .error (.key "agent_id") := rfl

/-- C9 (amended): `resolve` never raises provided each dimension table
carries its identity column and the fact table carries the three
foreign-key columns — the only conditions under which pandas can raise
in `handle_missing`. -/
theorem C9_resolver_total_amended (i a c s : Table)
    (h1 : "agent_id" ∈ a.cols) (h2 : "contact_center_id" ∈ c.cols)
    (h3 : "category_id" ∈ s.cols) (h4 : "agent_id" ∈ i.cols)
    (h5 : "contact_center_id" ∈ i.cols) (h6 : "category_id" ∈ i.cols) :
    ∃ t, handle_missing i a c s = .ok t := by
  refine ⟨resolveCol
      (resolveCol (resolveCol i "agent_id" ((colVals a "agent_id").dedup))
        "contact_center_id" ((colVals c "contact_center_id").dedup))
      "category_id" ((colVals s "category_id").dedup), ?_⟩
  rw [handle_missing]
  simp [resolveCol_cols, h1, h2, h3, h4, h5, h6]

/-- C9 witness: the amended theorem applied to the scenario tables. -/
theorem C9_witness :
    ∃ t, handle_missing exInteractions exAgents exContactCenters exCategories = .ok t :=
  C9_resolver_total_amended exInteractions exAgents exContactCenters exCategories
    (by decide) (by decide) (by decide) (by decide) (by decide) (by decide)

/-! ## C10: frame effect of the resolver -/

/-- C10: `handle_missing` changes at most the three foreign-key
columns: the output has the same column labels, the same number of rows
in the same order, every other column's cells are unchanged, and a
foreign-key cell already present in its dimension's identity set is left
unchanged. -/
theorem C10_resolver_frame {i a c s out : Table}
    (h : handle_missing i a c s = .ok out) :
    out.cols = i.cols ∧ out.rows.length = i.rows.length ∧
    ∀ j : Nat, ∀ r0 r1 : List Val, i.rows[j]? = some r0 → out.rows[j]? = some r1 →
      (∀ col : String, col ≠ "agent_id" → col ≠ "contact_center_id" → col ≠ "category_id" →
        cellAt i.cols r1 col = cellAt i.cols r0 col) ∧
      (cellAt i.cols r0 "agent_id" ∈ colVals a "agent_id" →
        cellAt i.cols r1 "agent_id" = cellAt i.cols r0 "agent_id") ∧
      (cellAt i.cols r0 "contact_center_id" ∈ colVals c "contact_center_id" →
        cellAt i.cols r1 "contact_center_id" = cellAt i.cols r0 "contact_center_id") ∧
      (cellAt i.cols r0 "category_id" ∈ colVals s "category_id" →
        cellAt i.cols r1 "category_id" = cellAt i.cols r0 "category_id") := by
  obtain ⟨-, -, -, -, -, -, hout⟩ := handle_missing_ok_inv h
  subst hout
  refine ⟨rfl, by simp [resolveCol], ?_⟩
  intro j r0 r1 h0 h1
  simp only [resolveCol, resolveCol_cols, List.getElem?_map, h0, Option.map_some'] at h1
  rw [Option.some.injEq] at h1
  subst h1
  refine ⟨?_, ?_, ?_, ?_⟩
  · intro col hca hcc hck
    rw [resolveRow_cell_ne hck, resolveRow_cell_ne hcc, resolveRow_cell_ne hca]
  · intro hmem
    rw [resolveRow_cell_ne (by decide), resolveRow_cell_ne (by decide),
      resolveRow_of_mem (by rwa [List.mem_dedup])]
  · intro hmem
    rw [resolveRow_cell_ne (by decide)]
    have h1 : cellAt i.cols (resolveRow i.cols "agent_id" ((colVals a "agent_id").dedup) r0)
        "contact_center_id" = cellAt i.cols r0 "contact_center_id" :=
      resolveRow_cell_ne (by decide)
    rw [resolveRow_of_mem (by rwa [h1, List.mem_dedup]), h1]
  · intro hmem
    have h1 : cellAt i.cols (resolveRow i.cols "agent_id" ((colVals a "agent_id").dedup) r0)
        "category_id" = cellAt i.cols r0 "category_id" :=
      resolveRow_cell_ne (by decide)
    have h2 : cellAt i.cols (resolveRow i.cols "contact_center_id"
          ((colVals c "contact_center_id").dedup)
          (resolveRow i.cols "agent_id" ((colVals a "agent_id").dedup) r0))
        "category_id" = cellAt i.cols r0 "category_id" := by
      rw [resolveRow_cell_ne (by decide), h1]
    rw [resolveRow_of_mem (by rwa [h2, List.mem_dedup]), h2]

/-- C10 witness: the frame theorem applied to the scenario tables. -/
theorem C10_witness :
    (handle_missing exInteractions exAgents exContactCenters exCategories = .ok exResolved) ∧
    (exResolved.cols = exInteractions.cols ∧
      exResolved.rows.length = exInteractions.rows.length ∧
      ∀ j : Nat, ∀ r0 r1 : List Val,
        exInteractions.rows[j]? = some r0 → exResolved.rows[j]? = some r1 →
        (∀ col : String, col ≠ "agent_id" → col ≠ "contact_center_id" → col ≠ "category_id" →
          cellAt exInteractions.cols r1 col = cellAt exInteractions.cols r0 col) ∧
        (cellAt exInteractions.cols r0 "agent_id" ∈ colVals exAgents "agent_id" →
          cellAt exInteractions.cols r1 "agent_id" = cellAt exInteractions.cols r0 "agent_id") ∧
        (cellAt exInteractions.cols r0 "contact_center_id" ∈
            colVals exContactCenters "contact_center_id" →
          cellAt exInteractions.cols r1 "contact_center_id" =
            cellAt exInteractions.cols r0 "contact_center_id") ∧
        (cellAt exInteractions.cols r0 "category_id" ∈ colVals exCategories "category_id" →
          cellAt exInteractions.cols r1 "category_id" =
            cellAt exInteractions.cols r0 "category_id")) :=
  ⟨by rfl, C10_resolver_frame (by rfl)⟩

/-! ## C2: referential closure -/

/-- C2: after a successful resolution pass over a (rectangular) fact
table, every foreign-key cell is either present in the corresponding
dimension's identity set or equals "Unknown"; moreover any fact row
whose `contact_center_id` was not present in the merged contact centers
comes out with `contact_center_id` "Unknown". -/
theorem C2_referential_closure {i a c s out : Table} (hwf : i.WF)
    (h : handle_missing i a c s = .ok out) :
    (∀ r ∈ out.rows,
      (cellAt out.cols r "agent_id" ∈ colVals a "agent_id" ∨
        cellAt out.cols r "agent_id" = .s "Unknown") ∧
      (cellAt out.cols r "contact_center_id" ∈ colVals c "contact_center_id" ∨
        cellAt out.cols r "contact_center_id" = .s "Unknown") ∧
      (cellAt out.cols r "category_id" ∈ colVals s "category_id" ∨
        cellAt out.cols r "category_id" = .s "Unknown")) ∧
    (∀ j : Nat, ∀ r0 r1 : List Val, i.rows[j]? = some r0 → out.rows[j]? = some r1 →
      cellAt i.cols r0 "contact_center_id" ∉ colVals c "contact_center_id" →
      cellAt out.cols r1 "contact_center_id" = .s "Unknown") := by
  obtain ⟨-, -, -, h4, h5, h6, hout⟩ := handle_missing_ok_inv h
  subst hout
  have hcols : (resolveCol (resolveCol (resolveCol i "agent_id"
      ((colVals a "agent_id").dedup)) "contact_center_id"
      ((colVals c "contact_center_id").dedup)) "category_id"
      ((colVals s "category_id").dedup)).cols = i.cols := rfl
  constructor
  · intro r hr
    rw [hcols]
    simp only [resolveCol, resolveCol_cols, List.mem_map] at hr
    obtain ⟨x, ⟨y, ⟨z, hz, rfl⟩, rfl⟩, rfl⟩ := hr
    have hlen0 : z.length ≥ i.cols.length := le_of_eq (hwf z hz).symm
    have hlen1 : (resolveRow i.cols "agent_id" ((colVals a "agent_id").dedup) z).length ≥
        i.cols.length := by rw [resolveRow_length]; exact hlen0
    have hlen2 : (resolveRow i.cols "contact_center_id" ((colVals c "contact_center_id").dedup)
        (resolveRow i.cols "agent_id" ((colVals a "agent_id").dedup) z)).length ≥
        i.cols.length := by rw [resolveRow_length]; exact hlen1
    refine ⟨?_, ?_, ?_⟩
    · rw [resolveRow_cell_ne (show "agent_id" ≠ "category_id" by decide),
        resolveRow_cell_ne (show "agent_id" ≠ "contact_center_id" by decide)]
      rcases @resolveRow_cell_self i.cols "agent_id" ((colVals a "agent_id").dedup) z
        h4 hlen0 with hm | hm
      · exact Or.inl (List.mem_dedup.mp hm)
      · exact Or.inr hm
    · rw [resolveRow_cell_ne (show "contact_center_id" ≠ "category_id" by decide)]
      rcases @resolveRow_cell_self i.cols "contact_center_id"
        ((colVals c "contact_center_id").dedup)
        (resolveRow i.cols "agent_id" ((colVals a "agent_id").dedup) z)
        h5 hlen1 with hm | hm
      · exact Or.inl (List.mem_dedup.mp hm)
      · exact Or.inr hm
    · rcases @resolveRow_cell_self i.cols "category_id" ((colVals s "category_id").dedup)
        (resolveRow i.cols "contact_center_id" ((colVals c "contact_center_id").dedup)
          (resolveRow i.cols "agent_id" ((colVals a "agent_id").dedup) z))
        h6 hlen2 with hm | hm
      · exact Or.inl (List.mem_dedup.mp hm)
      · exact Or.inr hm
  · intro j r0 r1 h0 h1 hnotin
    rw [hcols]
    simp only [resolveCol, resolveCol_cols, List.getElem?_map, h0, Option.map_some'] at h1
    rw [Option.some.injEq] at h1
    subst h1
    have hr0 : r0 ∈ i.rows := List.getElem?_mem h0
    have hlen0 : r0.length ≥ i.cols.length := le_of_eq (hwf r0 hr0).symm
    have hlen1 : (resolveRow i.cols "agent_id" ((colVals a "agent_id").dedup) r0).length ≥
        i.cols.length := by rw [resolveRow_length]; exact hlen0
    have hcc : cellAt i.cols (resolveRow i.cols "agent_id" ((colVals a "agent_id").dedup) r0)
        "contact_center_id" = cellAt i.cols r0 "contact_center_id" :=
      resolveRow_cell_ne (by decide)
    rw [resolveRow_cell_ne (show "contact_center_id" ≠ "category_id" by decide),
      resolveRow_cell_of_not_mem h5 hlen1 (by rw [hcc, List.mem_dedup]; exact hnotin)]

/-- C2 witness: the closure theorem applied to the scenario tables,
whose fact row carries the stale reference "C9". -/
theorem C2_witness :
    exInteractions.WF ∧
    (handle_missing exInteractions exAgents exContactCenters exCategories = .ok exResolved) ∧
    ((∀ r ∈ exResolved.rows,
      (cellAt exResolved.cols r "agent_id" ∈ colVals exAgents "agent_id" ∨
        cellAt exResolved.cols r "agent_id" = .s "Unknown") ∧
      (cellAt exResolved.cols r "contact_center_id" ∈
          colVals exContactCenters "contact_center_id" ∨
        cellAt exResolved.cols r "contact_center_id" = .s "Unknown") ∧
      (cellAt exResolved.cols r "category_id" ∈ colVals exCategories "category_id" ∨
        cellAt exResolved.cols r "category_id" = .s "Unknown")) ∧
    (∀ j : Nat, ∀ r0 r1 : List Val,
      exInteractions.rows[j]? = some r0 → exResolved.rows[j]? = some r1 →
      cellAt exInteractions.cols r0 "contact_center_id" ∉
        colVals exContactCenters "contact_center_id" →
      cellAt exResolved.cols r1 "contact_center_id" = .s "Unknown")) :=
  ⟨by decide, by rfl, C2_referential_closure (by decide) (by rfl)⟩

/-! ## setCol lemmas (used by the timestamp normalizer and the report
builder) -/

theorem exists_of_mem_zipWith {α β γ : Type} {f : α → β → γ} {l1 : List α} {l2 : List β}
    {x : γ} (h : x ∈ List.zipWith f l1 l2) : ∃ a ∈ l1, ∃ b ∈ l2, x = f a b := by
  induction l1 generalizing l2 with
  | nil => simp at h
  | cons a l1 ih =>
    cases l2 with
    | nil => simp at h
    | cons b l2 =>
      rcases List.mem_cons.mp h with rfl | h
      · exact ⟨a, List.mem_cons_self .., b, List.mem_cons_self .., rfl⟩
      · obtain ⟨a', ha, b', hb, hx⟩ := ih h
        exact ⟨a', List.mem_cons_of_mem _ ha, b', List.mem_cons_of_mem _ hb, hx⟩

theorem setCol_cols_of_mem {t : Table} {c : String} {vs : List Val} (hmem : c ∈ t.cols) :
    (setCol t c vs).cols = t.cols := by
  obtain ⟨k, hk⟩ := idx?_isSome_of_mem hmem
  simp [setCol, hk]

theorem setCol_rows_length {t : Table} {c : String} {vs : List Val}
    (hlen : vs.length = t.rows.length) :
    (setCol t c vs).rows.length = t.rows.length := by
  rw [setCol]
  rcases idx? c t.cols with _ | k <;> simp [List.length_zipWith, hlen]

theorem setCol_wf {t : Table} {c : String} {vs : List Val} (hmem : c ∈ t.cols)
    (hwf : t.WF) : (setCol t c vs).WF := by
  obtain ⟨k, hk⟩ := idx?_isSome_of_mem hmem
  simp only [setCol, hk]
  intro r hr
  obtain ⟨r0, hr0, v, -, rfl⟩ := exists_of_mem_zipWith hr
  simpa using hwf r0 hr0

/-- A cell written within the row's extent is read back. -/
theorem cellAt_set_self {cols : List String} {r : List Val} {c : String} {k : Nat} {v : Val}
    (hk : idx? c cols = some k) (hkr : k < r.length) :
    cellAt cols (r.set k v) c = v := by
  simp only [cellAt, hk]
  rw [List.getD_eq_getElem?_getD, List.getElem?_set_self']
  simp [List.getElem?_eq_getElem hkr]

theorem map_cellAt_zipWith_set_ne {cols : List String} {c c' : String} {k : Nat}
    (hk : idx? c cols = some k) (hne : c' ≠ c) :
    ∀ (rows : List (List Val)) (vs : List Val), vs.length = rows.length →
      (List.zipWith (fun r v => r.set k v) rows vs).map (fun r => cellAt cols r c') =
        rows.map (fun r => cellAt cols r c')
  | [], _, _ => by simp
  | r :: rs, v :: vs, hlen => by
    simp only [List.zipWith_cons_cons, List.map_cons]
    rw [cellAt_set_ne hk hne,
      map_cellAt_zipWith_set_ne hk hne rs vs (by simpa using hlen)]

theorem map_cellAt_zipWith_set_self {cols : List String} {c : String} {k : Nat}
    (hk : idx? c cols = some k) :
    ∀ (rows : List (List Val)) (vs : List Val), vs.length = rows.length →
      (∀ r ∈ rows, k < r.length) →
      (List.zipWith (fun r v => r.set k v) rows vs).map (fun r => cellAt cols r c) = vs
  | [], [], _, _ => by simp
  | r :: rs, v :: vs, hlen, hkr => by
    simp only [List.zipWith_cons_cons, List.map_cons]
    rw [cellAt_set_self hk (hkr r (List.mem_cons_self ..)),
      map_cellAt_zipWith_set_self hk rs vs (by simpa using hlen)
        (fun r hr => hkr r (List.mem_cons_of_mem _ hr))]

theorem colVals_setCol_other {t : Table} {c c' : String} {vs : List Val}
    (hmem : c ∈ t.cols) (hlen : vs.length = t.rows.length) (hne : c' ≠ c) :
    colVals (setCol t c vs) c' = colVals t c' := by
  obtain ⟨k, hk⟩ := idx?_isSome_of_mem hmem
  simp only [setCol, hk, colVals]
  exact map_cellAt_zipWith_set_ne hk hne t.rows vs hlen

theorem colVals_setCol_self {t : Table} {c : String} {vs : List Val}
    (hmem : c ∈ t.cols) (hlen : vs.length = t.rows.length) (hwf : t.WF) :
    colVals (setCol t c vs) c = vs := by
  obtain ⟨k, hk⟩ := idx?_isSome_of_mem hmem
  have hkb : k < t.cols.length := idx?_bound hk
  simp only [setCol, hk, colVals]
  exact map_cellAt_zipWith_set_self hk t.rows vs hlen
    (fun r hr => by rw [hwf r hr]; exact hkb)

/-! ## Timestamp normalizer lemmas -/

theorem convertColumn_cols (conv : List Val → Except String (List Val)) (t : Table)
    (c : String) : (convertColumn conv t c).cols = t.cols := by
  rw [convertColumn]
  split_ifs with h
  · rcases conv (colVals t c) with _ | vs
    · rfl
    · exact setCol_cols_of_mem h
  · rfl

theorem convertColumn_wf {conv : List Val → Except String (List Val)} {t : Table}
    {c : String} (hwf : t.WF) : (convertColumn conv t c).WF := by
  rw [convertColumn]
  split_ifs with h
  · rcases conv (colVals t c) with _ | vs
    · exact hwf
    · exact setCol_wf h hwf
  · exact hwf

theorem convertColumn_rows_length {conv : List Val → Except String (List Val)} {t : Table}
    {c : String} (hconv : ∀ l vs, conv l = .ok vs → vs.length = l.length) :
    (convertColumn conv t c).rows.length = t.rows.length := by
  rw [convertColumn]
  split_ifs with h
  · rcases hres : conv (colVals t c) with _ | vs
    · rfl
    · exact setCol_rows_length (by simpa [colVals] using hconv _ _ hres)
  · rfl

theorem convertColumn_colVals_other {conv : List Val → Except String (List Val)} {t : Table}
    {c c' : String} (hconv : ∀ l vs, conv l = .ok vs → vs.length = l.length) (hne : c' ≠ c) :
    colVals (convertColumn conv t c) c' = colVals t c' := by
  rw [convertColumn]
  split_ifs with h
  · rcases hres : conv (colVals t c) with _ | vs
    · rfl
    · exact colVals_setCol_other h (by simpa [colVals] using hconv _ _ hres) hne
  · rfl

theorem convertColumn_colVals_ok {conv : List Val → Except String (List Val)} {t : Table}
    {c : String} {vs : List Val} (hwf : t.WF)
    (hconv : ∀ l vs, conv l = .ok vs → vs.length = l.length)
    (hmem : c ∈ t.cols) (hres : conv (colVals t c) = .ok vs) :
    colVals (convertColumn conv t c) c = vs := by
  rw [convertColumn, if_pos hmem, hres]
  exact colVals_setCol_self hmem (by simpa [colVals] using hconv _ _ hres) hwf

theorem convertColumn_error {conv : List Val → Except String (List Val)} {t : Table}
    {c : String} {e : String} (hres : conv (colVals t c) = .error e) :
    convertColumn conv t c = t := by
  rw [convertColumn]
  split_ifs with h
  · rw [hres]
  · rfl

theorem convertColumn_absent {conv : List Val → Except String (List Val)} {t : Table}
    {c : String} (h : c ∉ t.cols) : convertColumn conv t c = t := by
  rw [convertColumn, if_neg h]

/-! ## C8: partial timestamp-failure isolation -/

/-- C8: for any conversion function (abstracting
`pd.to_datetime(...).dt.tz_convert(...)`, which on success yields one
converted value per input value) and any rectangular table: the run
completes with the same columns and row count (in particular a
recognized column's absence is not an error), a recognized present
column whose conversion fails keeps its original values, a recognized
present column whose conversion succeeds carries exactly the converted
values, and unrecognized columns are untouched. -/
theorem C8_timestamp_isolation (conv : List Val → Except String (List Val)) (t : Table)
    (hwf : t.WF) (hconv : ∀ l vs, conv l = .ok vs → vs.length = l.length) :
    (convert_timestamps conv t).cols = t.cols ∧
    (convert_timestamps conv t).rows.length = t.rows.length ∧
    (∀ c ∈ tsCols, c ∈ t.cols →
      (∀ e, conv (colVals t c) = .error e →
        colVals (convert_timestamps conv t) c = colVals t c) ∧
      (∀ vs, conv (colVals t c) = .ok vs →
        colVals (convert_timestamps conv t) c = vs)) ∧
    (∀ c : String, c ∉ tsCols → colVals (convert_timestamps conv t) c = colVals t c) := by
  have hwf1 : (convertColumn conv t "timestamp").WF := convertColumn_wf hwf
  have hwf2 : (convertColumn conv (convertColumn conv t "timestamp")
      "interaction_start").WF := convertColumn_wf hwf1
  have hwf3 : (convertColumn conv (convertColumn conv (convertColumn conv t "timestamp")
      "interaction_start") "agent_resolution_timestamp").WF := convertColumn_wf hwf2
  refine ⟨?_, ?_, ?_, ?_⟩
  · rw [convert_timestamps, convertColumn_cols, convertColumn_cols, convertColumn_cols,
      convertColumn_cols]
  · rw [convert_timestamps, convertColumn_rows_length hconv, convertColumn_rows_length hconv,
      convertColumn_rows_length hconv, convertColumn_rows_length hconv]
  · intro c hc hmem
    simp only [tsCols, List.mem_cons, List.not_mem_nil, or_false] at hc
    rcases hc with rfl | rfl | rfl | rfl
    · constructor
      · intro e hres
        rw [convert_timestamps, convertColumn_error hres,
          convertColumn_colVals_other hconv (by decide),
          convertColumn_colVals_other hconv (by decide),
          convertColumn_colVals_other hconv (by decide)]
      · intro vs hres
        rw [convert_timestamps, convertColumn_colVals_other hconv (by decide),
          convertColumn_colVals_other hconv (by decide),
          convertColumn_colVals_other hconv (by decide)]
        exact convertColumn_colVals_ok hwf hconv hmem hres
    · have hcv1 : colVals (convertColumn conv t "timestamp") "interaction_start" =
          colVals t "interaction_start" := convertColumn_colVals_other hconv (by decide)
      have hmem1 : "interaction_start" ∈ (convertColumn conv t "timestamp").cols := by
        rw [convertColumn_cols]
        exact hmem
      constructor
      · intro e hres
        rw [convert_timestamps,
          show convertColumn conv (convertColumn conv t "timestamp") "interaction_start" =
              convertColumn conv t "timestamp" from
            convertColumn_error (by rw [hcv1]; exact hres),
          convertColumn_colVals_other hconv (by decide),
          convertColumn_colVals_other hconv (by decide), hcv1]
      · intro vs hres
        rw [convert_timestamps, convertColumn_colVals_other hconv (by decide),
          convertColumn_colVals_other hconv (by decide)]
        exact convertColumn_colVals_ok hwf1 hconv hmem1 (by rw [hcv1]; exact hres)
    · have hcv2 : colVals (convertColumn conv (convertColumn conv t "timestamp")
          "interaction_start") "agent_resolution_timestamp" =
          colVals t "agent_resolution_timestamp" := by
        rw [convertColumn_colVals_other hconv (by decide),
          convertColumn_colVals_other hconv (by decide)]
      have hmem2 : "agent_resolution_timestamp" ∈ (convertColumn conv
          (convertColumn conv t "timestamp") "interaction_start").cols := by
        rw [convertColumn_cols, convertColumn_cols]
        exact hmem
      constructor
      · intro e hres
        rw [convert_timestamps,
          show convertColumn conv (convertColumn conv (convertColumn conv t "timestamp")
                "interaction_start") "agent_resolution_timestamp" =
              convertColumn conv (convertColumn conv t "timestamp") "interaction_start" from
            convertColumn_error (by rw [hcv2]; exact hres),
          convertColumn_colVals_other hconv (by decide), hcv2]
      · intro vs hres
        rw [convert_timestamps, convertColumn_colVals_other hconv (by decide)]
        exact convertColumn_colVals_ok hwf2 hconv hmem2 (by rw [hcv2]; exact hres)
    · have hcv3 : colVals (convertColumn conv (convertColumn conv
          (convertColumn conv t "timestamp") "interaction_start")
          "agent_resolution_timestamp") "interaction_end" =
          colVals t "interaction_end" := by
        rw [convertColumn_colVals_other hconv (by decide),
          convertColumn_colVals_other hconv (by decide),
          convertColumn_colVals_other hconv (by decide)]
      have hmem3 : "interaction_end" ∈ (convertColumn conv (convertColumn conv
          (convertColumn conv t "timestamp") "interaction_start")
          "agent_resolution_timestamp").cols := by
        rw [convertColumn_cols, convertColumn_cols, convertColumn_cols]
        exact hmem
      constructor
      · intro e hres
        rw [convert_timestamps,
          show convertColumn conv (convertColumn conv (convertColumn conv
                (convertColumn conv t "timestamp") "interaction_start")
                "agent_resolution_timestamp") "interaction_end" =
              convertColumn conv (convertColumn conv (convertColumn conv t "timestamp")
                "interaction_start") "agent_resolution_timestamp" from
            convertColumn_error (by rw [hcv3]; exact hres), hcv3]
      · intro vs hres
        rw [convert_timestamps]
        exact convertColumn_colVals_ok hwf3 hconv hmem3 (by rw [hcv3]; exact hres)
  · intro c hc
    simp only [tsCols, List.mem_cons, List.not_mem_nil, or_false, not_or] at hc
    obtain ⟨h1, h2, h3, h4⟩ := hc
    rw [convert_timestamps, convertColumn_colVals_other hconv h4,
      convertColumn_colVals_other hconv h3, convertColumn_colVals_other hconv h2,
      convertColumn_colVals_other hconv h1]

/-- A concrete conversion function for the C8 witness: fails on a column
containing the value "bad", otherwise tags every value. -/
def exConv (l : List Val) : Except String (List Val) :=
  if (Val.s "bad") ∈ l then .error "parse failure"
  else .ok (l.map (fun v => .s (pyStr v ++ "+est")))

/-- A table whose `timestamp` column fails conversion while
`interaction_start` converts, `agent_resolution_timestamp` is absent,
and `other` is untouched. -/
def exTsTable : Table :=
  ⟨["timestamp", "interaction_start", "other"],
    [[.s "bad", .s "2025-01-01", .s "x"]]⟩

theorem exConv_length : ∀ l vs, exConv l = .ok vs → vs.length = l.length := by
  intro l vs h
  rw [exConv] at h
  split_ifs at h with hb
  all_goals
    first
      | exact Except.noConfusion h
      | (rw [Except.ok.injEq] at h
         rw [← h, List.length_map])

/-- C8 witness: the isolation theorem applied to a concrete table where
the `timestamp` column fails conversion and `interaction_start`
still converts. -/
theorem C8_witness :
    exTsTable.WF ∧
    (∀ l vs, exConv l = .ok vs → vs.length = l.length) ∧
    ((convert_timestamps exConv exTsTable).cols = exTsTable.cols ∧
      (convert_timestamps exConv exTsTable).rows.length = exTsTable.rows.length ∧
      (∀ c ∈ tsCols, c ∈ exTsTable.cols →
        (∀ e, exConv (colVals exTsTable c) = .error e →
          colVals (convert_timestamps exConv exTsTable) c = colVals exTsTable c) ∧
        (∀ vs, exConv (colVals exTsTable c) = .ok vs →
          colVals (convert_timestamps exConv exTsTable) c = vs)) ∧
      (∀ c : String, c ∉ tsCols →
        colVals (convert_timestamps exConv exTsTable) c = colVals exTsTable c)) :=
  ⟨by decide, exConv_length,
   C8_timestamp_isolation exConv exTsTable (by decide) exConv_length⟩

/-! ## Delta-merge engine lemmas -/

theorem normalizeActions_cols {delta : Table} (h : "action" ∈ delta.cols) :
    (normalizeActions delta).cols = delta.cols := setCol_cols_of_mem h

theorem actionRows_cols (delta2 : Table) (a : String) :
    (actionRows delta2 a).cols = delta2.cols := rfl

theorem dropCol_cols (t : Table) (c : String) :
    (dropCol t c).cols = t.cols.filter (fun n => decide (n ≠ c)) := rfl

theorem updatesOf_cols {delta : Table} (h : "action" ∈ delta.cols) :
    (updatesOf delta).cols = delta.cols.filter (fun n => decide (n ≠ "action")) := by
  rw [updatesOf, dropCol_cols, actionRows_cols, normalizeActions_cols h]

theorem addsOf_cols {delta : Table} (h : "action" ∈ delta.cols) :
    (addsOf delta).cols = delta.cols.filter (fun n => decide (n ≠ "action")) := by
  rw [addsOf, dropCol_cols, actionRows_cols, normalizeActions_cols h]

theorem mem_blockCols {delta : Table} {id : String} (hact : "action" ∈ delta.cols)
    (hd : id ∈ delta.cols) (hne : id ≠ "action") :
    id ∈ delta.cols.filter (fun n => decide (n ≠ "action")) :=
  List.mem_filter.mpr ⟨hd, by simp [hne]⟩

theorem delRows_cols (t : Table) (id : String) (vs : List Val) :
    (delRows t id vs).cols = t.cols := rfl

theorem fillna_cols (t : Table) : (fillna t).cols = t.cols := rfl

theorem concatTables_cols (t1 t2 : Table) :
    (concatTables t1 t2).cols = t1.cols ++ t2.cols.filter (fun c => decide (c ∉ t1.cols)) :=
  rfl

theorem exceptBind_ok {eps alpha beta : Type} (a : alpha) (f : alpha → Except eps beta) :
    Bind.bind (Except.ok a) f = f a := rfl

theorem stepDelete_ok_cols {id : String} {del : List Val} {out out1 : Table}
    (h : stepDelete id del out = .ok out1) : out1.cols = out.cols := by
  rw [stepDelete] at h
  by_cases h1 : del.isEmpty
  · rw [if_pos h1, Except.ok.injEq] at h
    rw [← h]
  · rw [if_neg h1] at h
    by_cases h2 : id ∈ out.cols
    · rw [if_pos h2, Except.ok.injEq] at h
      rw [← h]
      rfl
    · rw [if_neg h2] at h
      exact Except.noConfusion h

theorem stepUpsert_ok_cols {id : String} {block out out2 : Table}
    (h : stepUpsert id block out = .ok out2) : ∃ l, out2.cols = out.cols ++ l := by
  rw [stepUpsert] at h
  by_cases h1 : block.rows.isEmpty
  · rw [if_pos h1, Except.ok.injEq] at h
    exact ⟨[], by rw [← h]; simp⟩
  · rw [if_neg h1] at h
    by_cases h2 : id ∉ out.cols
    · rw [if_pos h2] at h
      exact Except.noConfusion h
    · rw [if_neg h2] at h
      by_cases h3 : id ∉ block.cols
      · rw [if_pos h3] at h
        exact Except.noConfusion h
      · rw [if_neg h3, Except.ok.injEq] at h
        exact ⟨block.cols.filter (fun c => decide (c ∉ out.cols)), by rw [← h]; rfl⟩

theorem stepDelete_ok_exists {id : String} {del : List Val} {out : Table}
    (hmem : id ∈ out.cols) : ∃ out1, stepDelete id del out = .ok out1 := by
  rw [stepDelete]
  by_cases h1 : del.isEmpty
  · rw [if_pos h1]
    exact ⟨out, rfl⟩
  · rw [if_neg h1, if_pos hmem]
    exact ⟨_, rfl⟩

theorem stepUpsert_ok_exists {id : String} {block out : Table}
    (hmem : id ∈ out.cols) (hb : id ∈ block.cols) :
    ∃ out2, stepUpsert id block out = .ok out2 := by
  rw [stepUpsert]
  by_cases h1 : block.rows.isEmpty
  · rw [if_pos h1]
    exact ⟨out, rfl⟩
  · rw [if_neg h1, if_neg (not_not.mpr hmem), if_neg (not_not.mpr hb)]
    exact ⟨_, rfl⟩

/-! ## C5: the merge engine's error conditions -/

/-- Concrete tables for the C5 counterexample: a delta batch whose
`action` column is present and valid but which lacks the identity
column, so the line-81 selection `delta[...][id_col]` raises KeyError
even though the spec's two preconditions hold. -/
def c5base : Table := ⟨["x"], [[.s "1"]]⟩

def c5delta : Table := ⟨["action"], [[.s "add"]]⟩

/-- C5 counterexample: the spec's two preconditions hold (the `action`
column exists and every action value is valid), yet `apply_delta`
raises — so "raises no error otherwise" fails as stated. -/
theorem C5_counterexample :
    ("action" ∈ c5delta.cols ∧ invalidActions c5delta = []) ∧
    apply_delta c5base c5delta "x" = .error (.key "x") :=
  ⟨⟨by decide, by rfl⟩, by rfl⟩

/-- C5 (amended): `apply_delta` fails with the schema error exactly when
the `action` column is missing, fails with the validation error listing
precisely the set of invalid normalized action values when any exists,
and raises no error otherwise provided additionally that both tables
carry the identity column and the identity column is not the `action`
column itself (without those, the identity-column selections raise
KeyError). -/
theorem C5_error_conditions_amended (base delta : Table) (id : String) :
    ("action" ∉ delta.cols → apply_delta base delta id = .error .schema) ∧
    ("action" ∈ delta.cols → invalidActions delta ≠ [] →
      apply_delta base delta id = .error (.validation (invalidActions delta)) ∧
      ∀ a : String, a ∈ invalidActions delta ↔
        (a ∈ (colVals delta "action").map normAct ∧ a ∉ validActions)) ∧
    ("action" ∈ delta.cols → invalidActions delta = [] → id ∈ delta.cols →
      id ∈ base.cols → id ≠ "action" → ∃ t, apply_delta base delta id = .ok t) := by
  refine ⟨?_, ?_, ?_⟩
  · intro h
    rw [apply_delta, if_pos h]
  · intro hact hinv
    constructor
    · rw [apply_delta, if_neg (not_not.mpr hact),
        if_pos (by simpa [List.isEmpty_iff] using hinv)]
    · intro a
      rw [invalidActions, List.mem_filter, List.mem_dedup]
      simp
  · intro hact hinv hd hb hne
    rw [apply_delta, if_neg (not_not.mpr hact),
      if_neg (by simp [List.isEmpty_iff, hinv]), if_neg (not_not.mpr hd)]
    obtain ⟨o1, ho1⟩ : ∃ o1, stepDelete id (deletesOf delta id) base = .ok o1 :=
      stepDelete_ok_exists hb
    have hc1 : o1.cols = base.cols := stepDelete_ok_cols ho1
    obtain ⟨o2, ho2⟩ : ∃ o2, stepUpsert id (updatesOf delta) o1 = .ok o2 :=
      stepUpsert_ok_exists (by rw [hc1]; exact hb)
        (by rw [updatesOf_cols hact]; exact mem_blockCols hact hd hne)
    obtain ⟨l2, hc2⟩ := stepUpsert_ok_cols ho2
    obtain ⟨o3, ho3⟩ : ∃ o3, stepUpsert id (addsOf delta) o2 = .ok o3 :=
      stepUpsert_ok_exists (by rw [hc2, hc1]; exact List.mem_append_left _ hb)
        (by rw [addsOf_cols hact]; exact mem_blockCols hact hd hne)
    refine ⟨o3, ?_⟩
    rw [ho1, exceptBind_ok, ho2, exceptBind_ok, ho3]
    rfl

/-- Concrete tables for the C5 witness. -/
def c5invalidDelta : Table :=
  ⟨["agent_id", "action"], [[.s "A1", .s "Frobnicate "]]⟩

def c5goodBase : Table := ⟨["agent_id", "name"], [[.s "A1", .s "old"]]⟩

def c5goodDelta : Table :=
  ⟨["agent_id", "action", "name"], [[.s "A2", .s " Add", .s "new"]]⟩

/-- C5 witness: the three branches of the amended theorem at concrete
inputs — a delta with no `action` column, a delta with an invalid
action value, and a fully well-formed delta. -/
theorem C5_witness :
    (apply_delta c5base (Table.mk ["agent_id"] [[.s "A1"]]) "agent_id" = .error .schema) ∧
    (apply_delta c5goodBase c5invalidDelta "agent_id" =
      .error (.validation (invalidActions c5invalidDelta)) ∧
      ∀ a : String, a ∈ invalidActions c5invalidDelta ↔
        (a ∈ (colVals c5invalidDelta "action").map normAct ∧ a ∉ validActions)) ∧
    (∃ t, apply_delta c5goodBase c5goodDelta "agent_id" = .ok t) :=
  ⟨(C5_error_conditions_amended c5base (Table.mk ["agent_id"] [[.s "A1"]]) "agent_id").1
      (by decide),
   (C5_error_conditions_amended c5goodBase c5invalidDelta "agent_id").2.1
      (by decide) (by decide),
   (C5_error_conditions_amended c5goodBase c5goodDelta "agent_id").2.2
      (by decide) (by decide) (by decide) (by decide) (by decide)⟩

/-! ## Characterizing the merge steps -/

theorem exceptBind_error {eps alpha beta : Type} (e : eps) (f : alpha → Except eps beta) :
    Bind.bind (Except.error e) f = (Except.error e : Except eps beta) := rfl

/-- Inversion of a successful `apply_delta` into its three phases. -/
theorem apply_delta_ok_inv {base delta : Table} {id : String} {out : Table}
    (h : apply_delta base delta id = .ok out) :
    "action" ∈ delta.cols ∧ invalidActions delta = [] ∧ id ∈ delta.cols ∧
    ∃ o1 o2, stepDelete id (deletesOf delta id) base = .ok o1 ∧
      stepUpsert id (updatesOf delta) o1 = .ok o2 ∧
      stepUpsert id (addsOf delta) o2 = .ok out := by
  rw [apply_delta] at h
  by_cases h1 : "action" ∉ delta.cols
  · rw [if_pos h1] at h
    exact Except.noConfusion h
  rw [if_neg h1] at h
  by_cases h2 : ¬(invalidActions delta).isEmpty
  · rw [if_pos h2] at h
    exact Except.noConfusion h
  rw [if_neg h2] at h
  by_cases h3 : id ∉ delta.cols
  · rw [if_pos h3] at h
    exact Except.noConfusion h
  rw [if_neg h3] at h
  rcases hs1 : stepDelete id (deletesOf delta id) base with e1 | o1
  · rw [hs1, exceptBind_error] at h
    exact Except.noConfusion h
  rw [hs1, exceptBind_ok] at h
  rcases hs2 : stepUpsert id (updatesOf delta) o1 with e2 | o2
  · rw [hs2, exceptBind_error] at h
    exact Except.noConfusion h
  rw [hs2, exceptBind_ok] at h
  rcases hs3 : stepUpsert id (addsOf delta) o2 with e3 | o3
  · rw [hs3, exceptBind_error] at h
    exact Except.noConfusion h
  rw [hs3, exceptBind_ok] at h
  rw [show (pure o3 : Except MergeError Table) = .ok o3 from rfl, Except.ok.injEq] at h
  subst h
  exact ⟨not_not.mp h1, by simpa [List.isEmpty_iff] using not_not.mp h2,
    not_not.mp h3, o1, o2, rfl, hs2, hs3⟩

theorem stepDelete_ok_cases {id : String} {del : List Val} {out o1 : Table}
    (h : stepDelete id del out = .ok o1) :
    (del = [] ∧ o1 = out) ∨
    (del ≠ [] ∧ id ∈ out.cols ∧ o1 = delRows out id del) := by
  rw [stepDelete] at h
  by_cases h1 : del.isEmpty
  · rw [if_pos h1, Except.ok.injEq] at h
    exact Or.inl ⟨List.isEmpty_iff.mp h1, h.symm⟩
  · rw [if_neg h1] at h
    by_cases h2 : id ∈ out.cols
    · rw [if_pos h2, Except.ok.injEq] at h
      exact Or.inr ⟨by simpa [List.isEmpty_iff] using h1, h2, h.symm⟩
    · rw [if_neg h2] at h
      exact Except.noConfusion h

theorem stepUpsert_ok_cases {id : String} {block out o2 : Table}
    (h : stepUpsert id block out = .ok o2) :
    (block.rows = [] ∧ o2 = out) ∨
    (block.rows ≠ [] ∧ id ∈ out.cols ∧ id ∈ block.cols ∧
      o2 = fillna (concatTables (delRows out id (colVals block id)) block)) := by
  rw [stepUpsert] at h
  by_cases h1 : block.rows.isEmpty
  · rw [if_pos h1, Except.ok.injEq] at h
    exact Or.inl ⟨List.isEmpty_iff.mp h1, h.symm⟩
  · rw [if_neg h1] at h
    by_cases h2 : id ∉ out.cols
    · rw [if_pos h2] at h
      exact Except.noConfusion h
    · rw [if_neg h2] at h
      by_cases h3 : id ∉ block.cols
      · rw [if_pos h3] at h
        exact Except.noConfusion h
      · rw [if_neg h3, Except.ok.injEq] at h
        exact Or.inr ⟨by simpa [List.isEmpty_iff] using h1, not_not.mp h2,
          not_not.mp h3, h.symm⟩

/-! ## Cell/column values through pad, realign and fill -/

theorem fillCell_ne_na (v : Val) : fillCell v ≠ .na := by
  cases v <;> simp [fillCell]

theorem fillCell_idem (v : Val) : fillCell (fillCell v) = fillCell v := by
  cases v <;> rfl

theorem fillCell_of_ne_na {v : Val} (h : v ≠ .na) : fillCell v = v := by
  cases v with
  | na => exact absurd rfl h
  | s v => rfl
  | i n => rfl

theorem map_fill_idem (r : List Val) :
    List.map fillCell (List.map fillCell r) = List.map fillCell r := by
  rw [List.map_map]
  exact List.map_congr_left (fun v _ => fillCell_idem v)

theorem realign_length (oldCols newCols : List String) (r : List Val) :
    (realign oldCols newCols r).length = newCols.length := List.length_map ..

/-- Cell of a fill-of-realign row: the fill of the original cell. -/
theorem cellAt_fill_realign {oldCols newCols : List String} {r : List Val} {c : String}
    (hmem : c ∈ newCols) :
    cellAt newCols ((realign oldCols newCols r).map fillCell) c =
      fillCell (cellAt oldCols r c) := by
  rw [cellAt_fill_of_full hmem (le_of_eq (realign_length ..).symm), cellAt_realign hmem]

/-- Cell of a fill-of-pad row, when the original cell is not NaN. -/
theorem cellAt_fill_pad {l1 l2 : List String} {r : List Val} {c : String} {k : Nat}
    (hmem : c ∈ l1) (hna : cellAt l1 r c ≠ .na) :
    cellAt (l1 ++ l2) ((padRow k r).map fillCell) c = cellAt l1 r c := by
  have hp : cellAt (l1 ++ l2) (padRow k r) c = cellAt l1 r c := cellAt_pad hmem
  rw [cellAt_fill_of_ne_na (by rw [hp]; exact hna), hp]

/-- The identity values of the upsert result `fillna(concat(X, B))`:
`X`'s identities followed by `B`'s, provided the identity column exists
on `X` and no identity cell is NaN (NaN identities are the ones `fillna`
would rewrite). -/
theorem colVals_fill_concat {X B : Table} {id : String} (hmem : id ∈ X.cols)
    (hX : ∀ v ∈ colVals X id, v ≠ .na) (hB : ∀ v ∈ colVals B id, v ≠ .na) :
    colVals (fillna (concatTables X B)) id = colVals X id ++ colVals B id := by
  have hXcols : (fillna (concatTables X B)).cols =
      X.cols ++ B.cols.filter (fun c => decide (c ∉ X.cols)) := rfl
  have hrows : (fillna (concatTables X B)).rows =
      (X.rows.map (padRow ((concatTables X B).cols.length - X.cols.length))).map
        (List.map fillCell) ++
      (B.rows.map (realign B.cols (concatTables X B).cols)).map (List.map fillCell) := by
    simp [fillna, concatTables]
  rw [colVals, hrows, List.map_append, hXcols]
  congr 1
  · rw [List.map_map, List.map_map]
    apply List.map_congr_left
    intro r hr
    have : cellAt X.cols r id ≠ .na := hX _ (List.mem_map_of_mem _ hr)
    exact cellAt_fill_pad hmem this
  · rw [List.map_map, List.map_map]
    apply List.map_congr_left
    intro d hd
    have hidF : id ∈ (concatTables X B).cols := List.mem_append_left _ hmem
    have : cellAt B.cols d id ≠ .na := hB _ (List.mem_map_of_mem _ hd)
    show cellAt (X.cols ++ B.cols.filter _) _ id = _
    rw [show X.cols ++ B.cols.filter (fun c => decide (c ∉ X.cols)) =
        (concatTables X B).cols from rfl]
    rw [cellAt_fill_realign hidF, fillCell_of_ne_na this]

/-- The identity values of `delRows` are the original identity values
with the deleted ones filtered out. -/
theorem colVals_delRows (t : Table) (id : String) (vs : List Val) :
    colVals (delRows t id vs) id = (colVals t id).filter (fun v => decide (v ∉ vs)) := by
  rw [colVals, delRows, colVals]
  show ((t.rows.filter _).map _ : List Val) = _
  rw [List.filter_map]
  rfl

/-! ## C6: unset-field sentinel -/

theorem blockCols_eq (delta : Table) : (addsOf delta).cols = (updatesOf delta).cols := rfl

theorem mem_concat_cols_left {t1 t2 : Table} {c : String} (h : c ∈ t1.cols) :
    c ∈ (concatTables t1 t2).cols := List.mem_append_left _ h

theorem mem_concat_cols_right {t1 t2 : Table} {c : String} (h : c ∈ t2.cols) :
    c ∈ (concatTables t1 t2).cols := by
  by_cases hx : c ∈ t1.cols
  · exact List.mem_append_left _ hx
  · exact List.mem_append_right _ (List.mem_filter.mpr ⟨h, by simpa using hx⟩)

/-- The rows of the upsert result, split into the padded-and-filled
survivors and the realigned-and-filled block rows. -/
theorem fill_concat_rows (X B : Table) :
    (fillna (concatTables X B)).rows =
      (X.rows.map (padRow ((concatTables X B).cols.length - X.cols.length))).map
        (List.map fillCell) ++
      (B.rows.map (realign B.cols (concatTables X B).cols)).map (List.map fillCell) := by
  simp [fillna, concatTables]

/-- Every block row appears in the upsert result, with every cell the
fill of the block row's cell. -/
theorem upsert_block_row {X B : Table} {d : List Val} (hd : d ∈ B.rows) :
    ((realign B.cols (concatTables X B).cols d).map fillCell ∈
      (fillna (concatTables X B)).rows) ∧
    ∀ c ∈ (fillna (concatTables X B)).cols,
      cellAt (fillna (concatTables X B)).cols
        ((realign B.cols (concatTables X B).cols d).map fillCell) c =
        fillCell (cellAt B.cols d c) := by
  constructor
  · rw [fill_concat_rows]
    exact List.mem_append_right _ (List.mem_map_of_mem _ (List.mem_map_of_mem _ hd))
  · intro c hc
    exact cellAt_fill_realign hc

/-- The three sentinel conjuncts, packaged from `y = fillCell x`. -/
theorem fill_conjuncts {x y : Val} (hxy : y = fillCell x) :
    (x = .na → y = .s "Unknown") ∧ (x ≠ .na → y = x) ∧ y ≠ .na := by
  subst hxy
  refine ⟨fun hx => by rw [hx]; rfl, fun hx => fillCell_of_ne_na hx, fillCell_ne_na x⟩

/-- C6: in a successful merge, every add row of the batch appears in the
output with each field it omitted (NaN) holding the string "Unknown" and
each field it provided unchanged, never null — and likewise every update
row whose (filled) identity is not superseded by an add row. -/
theorem C6_unset_field_sentinel {base delta : Table} {id : String} {out : Table}
    (h : apply_delta base delta id = .ok out) :
    (∀ d ∈ (addsOf delta).rows, ∃ r ∈ out.rows, ∀ c ∈ out.cols,
      (cellAt (addsOf delta).cols d c = .na → cellAt out.cols r c = .s "Unknown") ∧
      (cellAt (addsOf delta).cols d c ≠ .na →
        cellAt out.cols r c = cellAt (addsOf delta).cols d c) ∧
      cellAt out.cols r c ≠ .na) ∧
    (∀ d ∈ (updatesOf delta).rows,
      fillCell (cellAt (updatesOf delta).cols d id) ∉ colVals (addsOf delta) id →
      ∃ r ∈ out.rows, ∀ c ∈ out.cols,
        (cellAt (updatesOf delta).cols d c = .na → cellAt out.cols r c = .s "Unknown") ∧
        (cellAt (updatesOf delta).cols d c ≠ .na →
          cellAt out.cols r c = cellAt (updatesOf delta).cols d c) ∧
        cellAt out.cols r c ≠ .na) := by
  obtain ⟨hact, hval, hidd, o1, o2, hs1, hs2, hs3⟩ := apply_delta_ok_inv h
  constructor
  · intro d hd
    rcases stepUpsert_ok_cases hs3 with ⟨hempty, rfl⟩ | ⟨hne3, hmo2, hmb3, rfl⟩
    · rw [hempty] at hd
      exact absurd hd (List.not_mem_nil d)
    · obtain ⟨hr, hcell⟩ :=
        upsert_block_row (X := delRows o2 id (colVals (addsOf delta) id)) hd
      refine ⟨_, hr, ?_⟩
      intro c hc
      exact fill_conjuncts (hcell c hc)
  · intro d hd hnotin
    rcases stepUpsert_ok_cases hs2 with ⟨hempty, rfl⟩ | ⟨hne2, hmo1, hmb2, rfl⟩
    · rw [hempty] at hd
      exact absurd hd (List.not_mem_nil d)
    · obtain ⟨hr, hcell⟩ :=
        upsert_block_row (X := delRows o1 id (colVals (updatesOf delta) id)) hd
      rcases stepUpsert_ok_cases hs3 with ⟨-, rfl⟩ | ⟨hne3, hmo2, hmb3, rfl⟩
      · refine ⟨_, hr, ?_⟩
        intro c hc
        exact fill_conjuncts (hcell c hc)
      · -- the update row survives the add phase and is re-padded/filled
        set F2 := (fillna (concatTables (delRows o1 id (colVals (updatesOf delta) id))
          (updatesOf delta))).cols with hF2
        set ru := (realign (updatesOf delta).cols
          (concatTables (delRows o1 id (colVals (updatesOf delta) id))
            (updatesOf delta)).cols d).map fillCell with hru
        have hidcell : cellAt F2 ru id = fillCell (cellAt (updatesOf delta).cols d id) :=
          hcell id hmo2
        have hXmem : ru ∈ (delRows (fillna (concatTables
            (delRows o1 id (colVals (updatesOf delta) id)) (updatesOf delta)))
            id (colVals (addsOf delta) id)).rows := by
          rw [delRows]
          exact List.mem_filter.mpr ⟨hr, by
            simp only [decide_eq_true_eq]
            rw [show (fillna (concatTables (delRows o1 id
              (colVals (updatesOf delta) id)) (updatesOf delta))).cols = F2 from rfl]
            rw [hidcell]
            exact hnotin⟩
        -- the final row: pad (a no-op on cells) and fill (idempotent)
        refine ⟨(padRow ((concatTables (delRows (fillna (concatTables
            (delRows o1 id (colVals (updatesOf delta) id)) (updatesOf delta)))
            id (colVals (addsOf delta) id)) (addsOf delta)).cols.length -
            F2.length) ru).map fillCell, ?_, ?_⟩
        · rw [fill_concat_rows]
          exact List.mem_append_left _ (List.mem_map_of_mem _ (List.mem_map_of_mem _ hXmem))
        · intro c hc
          have hsub : c ∈ F2 := by
            rcases List.mem_append.mp hc with hl | hrr
            · exact hl
            · obtain ⟨hcB, hnot⟩ := List.mem_filter.mp hrr
              rw [blockCols_eq] at hcB
              exact absurd (@mem_concat_cols_right
                (delRows o1 id (colVals (updatesOf delta) id)) (updatesOf delta) c hcB)
                (by simpa using hnot)
          have hcellc : cellAt F2 ru c = fillCell (cellAt (updatesOf delta).cols d c) :=
            hcell c hsub
          have hcpad : cellAt (fillna (concatTables (delRows (fillna (concatTables
              (delRows o1 id (colVals (updatesOf delta) id)) (updatesOf delta)))
              id (colVals (addsOf delta) id)) (addsOf delta))).cols
              ((padRow ((concatTables (delRows (fillna (concatTables
                (delRows o1 id (colVals (updatesOf delta) id)) (updatesOf delta)))
                id (colVals (addsOf delta) id)) (addsOf delta)).cols.length -
                F2.length) ru).map fillCell) c = cellAt F2 ru c := by
            refine cellAt_fill_pad hsub ?_
            show cellAt F2 ru c ≠ Val.na
            rw [hcellc]
            exact fillCell_ne_na _
          refine fill_conjuncts ?_
          rw [hcpad, hcellc]

/-- Concrete tables for the C6 witness: the add row omits `extra` (NaN)
and carries no `name` at all; the update row carries `extra` but no
`name`. -/
def c6base : Table := ⟨["agent_id", "name"], [[.s "A1", .s "old1"], [.s "A2", .s "old2"]]⟩

def c6delta : Table :=
  ⟨["agent_id", "action", "extra"],
    [[.s "A9", .s "add", .na], [.s "A1", .s "update", .s "e1"]]⟩

/-- The merged output for the C6 witness tables. -/
def c6out : Table :=
  ⟨["agent_id", "name", "extra"],
    [[.s "A2", .s "old2", .s "Unknown"],
     [.s "A1", .s "Unknown", .s "e1"],
     [.s "A9", .s "Unknown", .s "Unknown"]]⟩

/-- C6 witness: the sentinel theorem applied to the concrete batch. -/
theorem C6_witness :
    (apply_delta c6base c6delta "agent_id" = .ok c6out) ∧
    ((∀ d ∈ (addsOf c6delta).rows, ∃ r ∈ c6out.rows, ∀ c ∈ c6out.cols,
      (cellAt (addsOf c6delta).cols d c = .na → cellAt c6out.cols r c = .s "Unknown") ∧
      (cellAt (addsOf c6delta).cols d c ≠ .na →
        cellAt c6out.cols r c = cellAt (addsOf c6delta).cols d c) ∧
      cellAt c6out.cols r c ≠ .na) ∧
    (∀ d ∈ (updatesOf c6delta).rows,
      fillCell (cellAt (updatesOf c6delta).cols d "agent_id") ∉
        colVals (addsOf c6delta) "agent_id" →
      ∃ r ∈ c6out.rows, ∀ c ∈ c6out.cols,
        (cellAt (updatesOf c6delta).cols d c = .na → cellAt c6out.cols r c = .s "Unknown") ∧
        (cellAt (updatesOf c6delta).cols d c ≠ .na →
          cellAt c6out.cols r c = cellAt (updatesOf c6delta).cols d c) ∧
        cellAt c6out.cols r c ≠ .na)) :=
  ⟨by rfl, @C6_unset_field_sentinel c6base c6delta "agent_id" c6out (by rfl)⟩

/-! ## C4: delete completeness -/

theorem mem_colVals_delRows {t : Table} {id : String} {vs : List Val} {v : Val} :
    v ∈ colVals (delRows t id vs) id ↔ v ∈ colVals t id ∧ v ∉ vs := by
  rw [colVals_delRows, List.mem_filter]
  simp

/-- An upsert phase preserves "this identity does not occur" (for an
identity absent from the block) together with non-nullness of all
identities. -/
theorem upsert_not_mem {id : String} {B o o2 : Table} {v : Val}
    (hs : stepUpsert id B o = .ok o2)
    (hodef : ∀ w ∈ colVals o id, w ≠ .na)
    (hBdef : ∀ w ∈ colVals B id, w ≠ .na)
    (hov : v ∉ colVals o id) (hvB : v ∉ colVals B id) :
    v ∉ colVals o2 id ∧ ∀ w ∈ colVals o2 id, w ≠ .na := by
  rcases stepUpsert_ok_cases hs with ⟨-, rfl⟩ | ⟨-, hmo, -, rfl⟩
  · exact ⟨hov, hodef⟩
  · have hXdef : ∀ w ∈ colVals (delRows o id (colVals B id)) id, w ≠ .na := by
      intro w hw
      exact hodef w (mem_colVals_delRows.mp hw).1
    rw [colVals_fill_concat (show id ∈ (delRows o id (colVals B id)).cols from hmo)
      hXdef hBdef]
    refine ⟨?_, ?_⟩
    · intro hvmem
      rcases List.mem_append.mp hvmem with hl | hr
      · exact hov (mem_colVals_delRows.mp hl).1
      · exact hvB hr
    · intro w hw
      rcases List.mem_append.mp hw with hl | hr
      · exact hXdef w hl
      · exact hBdef w hr

/-- Concrete tables for the C4 counterexample: the same identity under
`delete` and `add` in one batch — the Add phase runs after Delete and
re-inserts the row. -/
def c4base : Table := ⟨["agent_id", "name"], [[.s "A1", .s "old1"]]⟩

def c4delta : Table :=
  ⟨["agent_id", "action", "name"],
    [[.s "A1", .s "delete", .na], [.s "A1", .s "add", .s "resurrected"]]⟩

/-- C4 counterexample: "A1" is carried by a delete-action row of the
batch, yet it is present in the merged table's identity column. -/
theorem C4_counterexample :
    .s "A1" ∈ deletesOf c4delta "agent_id" ∧
    (apply_delta c4base c4delta "agent_id").map (fun t => colVals t "agent_id") =
      .ok [.s "A1"] :=
  ⟨by decide, by rfl⟩

/-- C4 (amended): every delete-row identity is absent from the merged
identity column, provided the baseline's and the batch's identity cells
are non-null and no delete identity also occurs on an update or add row
of the same batch. -/
theorem C4_delete_completeness_amended {base delta : Table} {id : String} {out : Table}
    (hbase : ∀ v ∈ colVals base id, v ≠ .na)
    (hU : ∀ v ∈ colVals (updatesOf delta) id, v ≠ .na)
    (hA : ∀ v ∈ colVals (addsOf delta) id, v ≠ .na)
    (hdu : ∀ v ∈ deletesOf delta id, v ∉ colVals (updatesOf delta) id)
    (hda : ∀ v ∈ deletesOf delta id, v ∉ colVals (addsOf delta) id)
    (h : apply_delta base delta id = .ok out) :
    ∀ v ∈ deletesOf delta id, v ∉ colVals out id := by
  intro v hv
  obtain ⟨hact, hval, hidd, o1, o2, hs1, hs2, hs3⟩ := apply_delta_ok_inv h
  rcases stepDelete_ok_cases hs1 with ⟨hdel, rfl⟩ | ⟨hdel, hmemb, rfl⟩
  · rw [hdel] at hv
    exact absurd hv (List.not_mem_nil v)
  · have f1v : v ∉ colVals (delRows base id (deletesOf delta id)) id := by
      intro hmem
      exact (mem_colVals_delRows.mp hmem).2 hv
    have f1def : ∀ w ∈ colVals (delRows base id (deletesOf delta id)) id, w ≠ .na := by
      intro w hw
      exact hbase w (mem_colVals_delRows.mp hw).1
    obtain ⟨f2v, f2def⟩ := upsert_not_mem hs2 f1def hU f1v (hdu v hv)
    obtain ⟨f3v, -⟩ := upsert_not_mem hs3 f2def hA f2v (hda v hv)
    exact f3v

/-- Concrete tables for the C4 witness: deletes disjoint from the other
actions. -/
def c4wBase : Table :=
  ⟨["agent_id", "name"], [[.s "A1", .s "old1"], [.s "A2", .s "old2"]]⟩

def c4wDelta : Table :=
  ⟨["agent_id", "action", "name"],
    [[.s "A1", .s "update", .s "X"], [.s "A3", .s "add", .s "Y"],
     [.s "A2", .s "delete", .na]]⟩

/-- C4 witness: the amended theorem at the spec's scenario batch
(update A1, add A3, delete A2). -/
theorem C4_witness :
    (∀ v ∈ colVals c4wBase "agent_id", v ≠ .na) ∧
    (∀ v ∈ colVals (updatesOf c4wDelta) "agent_id", v ≠ .na) ∧
    (∀ v ∈ colVals (addsOf c4wDelta) "agent_id", v ≠ .na) ∧
    (∀ v ∈ deletesOf c4wDelta "agent_id", v ∉ colVals (updatesOf c4wDelta) "agent_id") ∧
    (∀ v ∈ deletesOf c4wDelta "agent_id", v ∉ colVals (addsOf c4wDelta) "agent_id") ∧
    (apply_delta c4wBase c4wDelta "agent_id" = .ok
      ⟨["agent_id", "name"],
        [[.s "A1", .s "X"], [.s "A3", .s "Y"]]⟩) ∧
    (∀ v ∈ deletesOf c4wDelta "agent_id", v ∉ colVals
      (⟨["agent_id", "name"], [[.s "A1", .s "X"], [.s "A3", .s "Y"]]⟩ : Table)
      "agent_id") :=
  ⟨by decide, by decide, by decide, by decide, by decide, by rfl,
   @C4_delete_completeness_amended c4wBase c4wDelta "agent_id"
     ⟨["agent_id", "name"], [[.s "A1", .s "X"], [.s "A3", .s "Y"]]⟩
     (by decide) (by decide) (by decide) (by decide) (by decide) (by rfl)⟩

/-! ## C3: identity uniqueness -/

/-- An upsert phase preserves uniqueness and non-nullness of the
identity column, given the block's identities are themselves unique and
non-null. -/
theorem upsert_nodup {id : String} {B o o2 : Table}
    (hs : stepUpsert id B o = .ok o2)
    (hodef : ∀ w ∈ colVals o id, w ≠ .na)
    (hBdef : ∀ w ∈ colVals B id, w ≠ .na)
    (hond : (colVals o id).Nodup) (hBnd : (colVals B id).Nodup) :
    (colVals o2 id).Nodup ∧ ∀ w ∈ colVals o2 id, w ≠ .na := by
  rcases stepUpsert_ok_cases hs with ⟨-, rfl⟩ | ⟨-, hmo, -, rfl⟩
  · exact ⟨hond, hodef⟩
  · have hXdef : ∀ w ∈ colVals (delRows o id (colVals B id)) id, w ≠ .na := by
      intro w hw
      exact hodef w (mem_colVals_delRows.mp hw).1
    rw [colVals_fill_concat (show id ∈ (delRows o id (colVals B id)).cols from hmo)
      hXdef hBdef]
    refine ⟨List.Nodup.append ?_ hBnd ?_, ?_⟩
    · rw [colVals_delRows]
      exact hond.sublist (List.filter_sublist _)
    · intro a ha
      exact (mem_colVals_delRows.mp ha).2
    · intro w hw
      rcases List.mem_append.mp hw with hl | hr
      · exact hXdef w hl
      · exact hBdef w hr

/-- Concrete tables for the C3 counterexample: two update rows with the
same identity — both get appended. -/
def c3base : Table :=
  ⟨["agent_id", "name"], [[.s "A1", .s "old1"], [.s "A2", .s "old2"]]⟩

def c3delta : Table :=
  ⟨["agent_id", "action", "name"],
    [[.s "A1", .s "update", .s "X"], [.s "A1", .s "update", .s "Z"]]⟩

/-- C3 counterexample: a baseline with unique identities and a delta
batch accepted by `apply_delta` (valid action column) whose merge result
carries the identity "A1" twice. -/
theorem C3_counterexample :
    (colVals c3base "agent_id").Nodup ∧
    (apply_delta c3base c3delta "agent_id").map (fun t => colVals t "agent_id") =
      .ok [.s "A2", .s "A1", .s "A1"] ∧
    ¬ ([Val.s "A2", .s "A1", .s "A1"] : List Val).Nodup :=
  ⟨by decide, by rfl, by decide⟩

/-- C3 (amended): a successful merge preserves identity uniqueness,
provided the baseline's and the batch's identity cells are non-null and
the batch's update rows (and likewise its add rows) carry pairwise
distinct identities. -/
theorem C3_uniqueness_amended {base delta : Table} {id : String} {out : Table}
    (hbnd : (colVals base id).Nodup)
    (hbase : ∀ v ∈ colVals base id, v ≠ .na)
    (hU : ∀ v ∈ colVals (updatesOf delta) id, v ≠ .na)
    (hA : ∀ v ∈ colVals (addsOf delta) id, v ≠ .na)
    (hUnd : (colVals (updatesOf delta) id).Nodup)
    (hAnd : (colVals (addsOf delta) id).Nodup)
    (h : apply_delta base delta id = .ok out) :
    (colVals out id).Nodup := by
  obtain ⟨hact, hval, hidd, o1, o2, hs1, hs2, hs3⟩ := apply_delta_ok_inv h
  have step1 : (colVals o1 id).Nodup ∧ ∀ w ∈ colVals o1 id, w ≠ .na := by
    rcases stepDelete_ok_cases hs1 with ⟨-, rfl⟩ | ⟨-, -, rfl⟩
    · exact ⟨hbnd, hbase⟩
    · refine ⟨?_, ?_⟩
      · rw [colVals_delRows]
        exact hbnd.sublist (List.filter_sublist _)
      · intro w hw
        exact hbase w (mem_colVals_delRows.mp hw).1
  obtain ⟨h2nd, h2def⟩ := upsert_nodup hs2 step1.2 hU step1.1 hUnd
  obtain ⟨h3nd, -⟩ := upsert_nodup hs3 h2def hA h2nd hAnd
  exact h3nd

/-- C3 witness: the amended theorem at the spec's scenario batch. -/
theorem C3_witness :
    ((colVals c4wBase "agent_id").Nodup ∧
      (∀ v ∈ colVals c4wBase "agent_id", v ≠ .na) ∧
      (∀ v ∈ colVals (updatesOf c4wDelta) "agent_id", v ≠ .na) ∧
      (∀ v ∈ colVals (addsOf c4wDelta) "agent_id", v ≠ .na) ∧
      (colVals (updatesOf c4wDelta) "agent_id").Nodup ∧
      (colVals (addsOf c4wDelta) "agent_id").Nodup) ∧
    (colVals (⟨["agent_id", "name"], [[.s "A1", .s "X"], [.s "A3", .s "Y"]]⟩ : Table)
      "agent_id").Nodup :=
  ⟨⟨by decide, by decide, by decide, by decide, by decide, by decide⟩,
   @C3_uniqueness_amended c4wBase c4wDelta "agent_id"
     ⟨["agent_id", "name"], [[.s "A1", .s "X"], [.s "A3", .s "Y"]]⟩
     (by decide) (by decide) (by decide) (by decide) (by decide) (by decide) (by rfl)⟩

/-! ## C1 support: column-list extension, dropCol compatibility,
disjointness of the action blocks -/

/-- A cell read only depends on the prefix of the column list containing
the label. -/
theorem cellAt_cols_ext {l1 l2 : List String} {r : List Val} {c : String} (hmem : c ∈ l1) :
    cellAt (l1 ++ l2) r c = cellAt l1 r c := by
  obtain ⟨k, hk⟩ := idx?_isSome_of_mem hmem
  simp only [cellAt, idx?_append_left hk, hk]

theorem cellAt_cons_ne {c0 c' : String} (hne : c' ≠ c0) (cs : List String) (v : Val)
    (rs : List Val) : cellAt (c0 :: cs) (v :: rs) c' = cellAt cs rs c' := by
  have h0 : idx? c' (c0 :: cs) = (idx? c' cs).map (· + 1) := by
    rw [idx?, if_neg (fun h => hne h.symm)]
  rcases hk : idx? c' cs with _ | k
  · simp only [cellAt, h0, hk, Option.map_none']
  · simp only [cellAt, h0, hk, Option.map_some']
    rfl

theorem cellAt_cons_self (c0 : String) (cs : List String) (v : Val) (rs : List Val) :
    cellAt (c0 :: cs) (v :: rs) c0 = v := by
  simp [cellAt, idx?]

/-- Dropping a column leaves every other label's cell unchanged. -/
theorem cellAt_dropColRow {c c' : String} (hne : c' ≠ c) :
    ∀ (cols : List String) (r : List Val),
      cellAt (cols.filter (fun n => decide (n ≠ c))) (dropColRow cols c r) c' =
        cellAt cols r c'
  | [], r => by
    simp [dropColRow, cellAt, idx?]
  | c0 :: cs, [] => by
    rw [show dropColRow (c0 :: cs) c [] = [] from rfl, cellAt_nil, cellAt_nil]
  | c0 :: cs, v :: rs => by
    by_cases h0 : c0 = c
    · subst h0
      rw [List.filter_cons_of_neg (by simp)]
      rw [show dropColRow (c0 :: cs) c0 (v :: rs) = dropColRow cs c0 rs from by
        simp [dropColRow]]
      rw [cellAt_dropColRow hne cs rs, cellAt_cons_ne hne]
    · rw [List.filter_cons_of_pos (by simpa using h0)]
      rw [show dropColRow (c0 :: cs) c (v :: rs) = v :: dropColRow cs c rs from by
        simp [dropColRow, h0]]
      by_cases hc0 : c' = c0
      · subst hc0
        rw [cellAt_cons_self, cellAt_cons_self]
      · rw [cellAt_cons_ne hc0, cellAt_cons_ne hc0, cellAt_dropColRow hne cs rs]

theorem colVals_dropCol {t : Table} {c c' : String} (hne : c' ≠ c) :
    colVals (dropCol t c) c' = colVals t c' := by
  rw [colVals, colVals, dropCol]
  show (t.rows.map (dropColRow t.cols c)).map _ = _
  rw [List.map_map]
  exact List.map_congr_left (fun r _ => cellAt_dropColRow hne t.cols r)

theorem mem_map_of_mem_filter {α β : Type} {f : α → β} {p : α → Bool} {l : List α}
    {v : β} (h : v ∈ (l.filter p).map f) : v ∈ l.map f := by
  obtain ⟨b, hb, rfl⟩ := List.mem_map.mp h
  exact List.mem_map_of_mem f ((List.filter_sublist l).subset hb)

/-- Values drawn by two mutually exclusive row filters from a list with
pairwise-distinct values are disjoint. -/
theorem nodup_disjoint_filters {α β : Type} [DecidableEq β] {f : α → β}
    {p q : α → Bool} (hpq : ∀ a, ¬(p a = true ∧ q a = true)) :
    ∀ (l : List α), (l.map f).Nodup →
      ∀ v ∈ (l.filter p).map f, v ∉ (l.filter q).map f
  | [], _ => by simp
  | a :: l, hnd0 => by
    rw [List.map_cons, List.nodup_cons] at hnd0
    obtain ⟨hfa, hnd⟩ := hnd0
    have ih := nodup_disjoint_filters hpq l hnd
    intro v hv
    rcases hp : p a with _ | _
    · rw [List.filter_cons_of_neg (by simp [hp])] at hv
      rcases hq : q a with _ | _
      · rw [List.filter_cons_of_neg (by simp [hq])]
        exact ih v hv
      · rw [List.filter_cons_of_pos hq, List.map_cons]
        intro hmem
        rcases List.mem_cons.mp hmem with heq | hmem2
        · have : v ∈ l.map f := mem_map_of_mem_filter hv
          rw [heq] at this
          exact hfa this
        · exact ih v hv hmem2
    · rw [List.filter_cons_of_pos hp] at hv
      have hqa : q a = false := by
        rcases hq : q a with _ | _
        · rfl
        · exact absurd ⟨hp, hq⟩ (hpq a)
      rw [List.filter_cons_of_neg (by simp [hqa])]
      rw [List.map_cons] at hv
      rcases List.mem_cons.mp hv with rfl | hv2
      · intro hmem
        exact hfa (mem_map_of_mem_filter hmem)
      · exact ih v hv2

theorem padRow_zero (r : List Val) : padRow 0 r = r := by
  simp [padRow]

/-- Table extensionality via both fields. -/
theorem table_eq_mk {t : Table} {c : List String} {r : List (List Val)}
    (hc : t.cols = c) (hr : t.rows = r) : t = ⟨c, r⟩ := by
  cases t
  cases hc
  cases hr
  rfl

/-- The Delete phase is the identity on a table none of whose identity
cells is a delete identity. -/
theorem stepDelete_stable {id : String} {del : List Val} {T : Table}
    (hmem : del ≠ [] → id ∈ T.cols)
    (hrows : ∀ r ∈ T.rows, cellAt T.cols r id ∉ del) :
    stepDelete id del T = .ok T := by
  rw [stepDelete]
  by_cases hdel : del.isEmpty
  · rw [if_pos hdel]
  · rw [if_neg hdel, if_pos (hmem (by simpa [List.isEmpty_iff] using hdel))]
    have hfeq : T.rows.filter (fun r => decide (cellAt T.cols r id ∉ del)) = T.rows :=
      List.filter_eq_self.mpr (fun r hr => by simpa using hrows r hr)
    exact congrArg Except.ok (congrArg (Table.mk T.cols) hfeq)

/-- The Update/Add phase is "stable" on a table that already carries the
block's realigned-and-filled rows (and whose other rows neither collide
with the block's identities nor contain NaN cells): the phase removes
exactly the block rows and re-appends identical copies. -/
theorem stepUpsert_stable {id : String} {B : Table} {F2 : List String}
    {P1 P2 P3 : List (List Val)}
    (hBne : B.rows ≠ [])
    (hid : id ∈ F2) (hidB : id ∈ B.cols)
    (hsub : ∀ c ∈ B.cols, c ∈ F2)
    (hBdef : ∀ v ∈ colVals B id, v ≠ .na)
    (hP1 : ∀ r ∈ P1, cellAt F2 r id ∉ colVals B id ∧ r.map fillCell = r)
    (hP3 : ∀ r ∈ P3, cellAt F2 r id ∉ colVals B id ∧ r.map fillCell = r)
    (hP2 : P2 = B.rows.map (fun b => (realign B.cols F2 b).map fillCell)) :
    stepUpsert id B ⟨F2, (P1 ++ P2) ++ P3⟩ = .ok ⟨F2, (P1 ++ P3) ++ P2⟩ := by
  rw [stepUpsert]
  rw [if_neg (by simpa [List.isEmpty_iff] using hBne)]
  rw [if_neg (not_not.mpr (show id ∈ (Table.mk F2 ((P1 ++ P2) ++ P3)).cols from hid))]
  rw [if_neg (not_not.mpr hidB)]
  have hP2nil : P2.filter (fun r => decide (cellAt F2 r id ∉ colVals B id)) = [] := by
    rw [List.filter_eq_nil_iff]
    intro r hr
    rw [hP2] at hr
    obtain ⟨b, hb, rfl⟩ := List.mem_map.mp hr
    have hcell : cellAt F2 ((realign B.cols F2 b).map fillCell) id =
        fillCell (cellAt B.cols b id) := cellAt_fill_realign hid
    have hbmem : cellAt B.cols b id ∈ colVals B id := List.mem_map_of_mem _ hb
    simp only [decide_eq_true_eq, not_not]
    rw [hcell, fillCell_of_ne_na (hBdef _ hbmem)]
    exact hbmem
  have hdel : delRows ⟨F2, (P1 ++ P2) ++ P3⟩ id (colVals B id) = ⟨F2, P1 ++ P3⟩ := by
    rw [delRows]
    refine congrArg (Table.mk F2) ?_
    show ((P1 ++ P2) ++ P3).filter (fun r => decide (cellAt F2 r id ∉ colVals B id)) = _
    rw [List.filter_append, List.filter_append,
      List.filter_eq_self.mpr (fun r hr => by simpa using (hP1 r hr).1),
      hP2nil,
      List.filter_eq_self.mpr (fun r hr => by simpa using (hP3 r hr).1),
      List.append_nil]
  rw [hdel]
  have hfil : B.cols.filter (fun c => decide (c ∉ F2)) = [] := by
    rw [List.filter_eq_nil_iff]
    intro c hc
    simpa using hsub c hc
  refine congrArg Except.ok (table_eq_mk ?_ ?_)
  · show F2 ++ B.cols.filter (fun c => decide (c ∉ F2)) = F2
    rw [hfil, List.append_nil]
  · show ((P1 ++ P3).map (padRow ((F2 ++ B.cols.filter (fun c => decide (c ∉ F2))).length
        - F2.length)) ++
      B.rows.map (realign B.cols (F2 ++ B.cols.filter (fun c => decide (c ∉ F2))))).map
        (List.map fillCell) = (P1 ++ P3) ++ P2
    rw [hfil, List.append_nil, Nat.sub_self, List.map_append, List.map_map, List.map_map]
    congr 1
    · refine (List.map_congr_left ?_).trans (List.map_id' _)
      intro r hr
      show List.map fillCell (padRow 0 r) = r
      rw [padRow_zero]
      rcases List.mem_append.mp hr with h1 | h3
      · exact (hP1 r h1).2
      · exact (hP3 r h3).2
    · rw [hP2]
      rfl

/-- Identity facts about the three action blocks of a batch whose
identities are non-null and pairwise distinct: each block's identities
are non-null, and the blocks are pairwise disjoint (each action filter
selects disjoint subsets of the same duplicate-free value list). -/
theorem block_id_facts {delta : Table} {id : String} (hact : "action" ∈ delta.cols)
    (hdelta : ∀ v ∈ colVals delta id, v ≠ .na)
    (hnd : (colVals delta id).Nodup)
    (hneact : id ≠ "action") :
    (∀ v ∈ colVals (updatesOf delta) id, v ≠ .na) ∧
    (∀ v ∈ colVals (addsOf delta) id, v ≠ .na) ∧
    (∀ v ∈ colVals (updatesOf delta) id, v ∉ colVals (addsOf delta) id) ∧
    (∀ v ∈ colVals (addsOf delta) id, v ∉ colVals (updatesOf delta) id) ∧
    (∀ v ∈ deletesOf delta id, v ∉ colVals (updatesOf delta) id) ∧
    (∀ v ∈ deletesOf delta id, v ∉ colVals (addsOf delta) id) := by
  have hnorm : colVals (normalizeActions delta) id = colVals delta id := by
    rw [normalizeActions]
    refine colVals_setCol_other hact ?_ hneact
    rw [List.length_map]
    exact List.length_map ..
  have hLnd : ((normalizeActions delta).rows.map
      (fun r => cellAt (normalizeActions delta).cols r id)).Nodup := by
    show (colVals (normalizeActions delta) id).Nodup
    rw [hnorm]
    exact hnd
  have hLdef : ∀ v ∈ (normalizeActions delta).rows.map
      (fun r => cellAt (normalizeActions delta).cols r id), v ≠ .na := by
    show ∀ v ∈ colVals (normalizeActions delta) id, v ≠ .na
    rw [hnorm]
    exact hdelta
  have hcvU : colVals (updatesOf delta) id =
      ((normalizeActions delta).rows.filter
        (fun r => decide (cellAt (normalizeActions delta).cols r "action" = .s "update"))).map
        (fun r => cellAt (normalizeActions delta).cols r id) := by
    rw [updatesOf, colVals_dropCol hneact]
    rfl
  have hcvA : colVals (addsOf delta) id =
      ((normalizeActions delta).rows.filter
        (fun r => decide (cellAt (normalizeActions delta).cols r "action" = .s "add"))).map
        (fun r => cellAt (normalizeActions delta).cols r id) := by
    rw [addsOf, colVals_dropCol hneact]
    rfl
  have hcvD : deletesOf delta id =
      (((normalizeActions delta).rows.filter
        (fun r => decide (cellAt (normalizeActions delta).cols r "action" = .s "delete"))).map
        (fun r => cellAt (normalizeActions delta).cols r id)).dedup := rfl
  have hex : ∀ (a b : String), a ≠ b → ∀ r : List Val,
      ¬(decide (cellAt (normalizeActions delta).cols r "action" = Val.s a) = true ∧
        decide (cellAt (normalizeActions delta).cols r "action" = Val.s b) = true) := by
    intro a b hab r hcon
    obtain ⟨h1, h2⟩ := hcon
    rw [decide_eq_true_eq] at h1 h2
    rw [h1] at h2
    exact hab (Val.s.inj h2)
  refine ⟨?_, ?_, ?_, ?_, ?_, ?_⟩
  · intro v hv
    rw [hcvU] at hv
    exact hLdef v (mem_map_of_mem_filter hv)
  · intro v hv
    rw [hcvA] at hv
    exact hLdef v (mem_map_of_mem_filter hv)
  · intro v hv
    rw [hcvU] at hv
    rw [hcvA]
    exact nodup_disjoint_filters (hex "update" "add" (by decide)) _ hLnd v hv
  · intro v hv
    rw [hcvA] at hv
    rw [hcvU]
    exact nodup_disjoint_filters (hex "add" "update" (by decide)) _ hLnd v hv
  · intro v hv
    rw [hcvD, List.mem_dedup] at hv
    rw [hcvU]
    exact nodup_disjoint_filters (hex "delete" "update" (by decide)) _ hLnd v hv
  · intro v hv
    rw [hcvD, List.mem_dedup] at hv
    rw [hcvA]
    exact nodup_disjoint_filters (hex "delete" "add" (by decide)) _ hLnd v hv

/-- An empty block makes the Update/Add phase a no-op. -/
theorem stepUpsert_empty {id : String} {B t : Table} (h : B.rows = []) :
    stepUpsert id B t = .ok t := by
  rw [stepUpsert, if_pos (by rw [h]; rfl)]

theorem stepUpsert_ok_shape {id : String} {B o o2 : Table} (hne : ¬ B.rows = [])
    (h : stepUpsert id B o = .ok o2) :
    id ∈ o.cols ∧ id ∈ B.cols ∧
    o2 = fillna (concatTables (delRows o id (colVals B id)) B) := by
  rcases stepUpsert_ok_cases h with ⟨he, -⟩ | ⟨-, h1, h2, h3⟩
  · exact absurd he hne
  · exact ⟨h1, h2, h3⟩

deriving instance DecidableEq for Except

/-- Concrete tables for the C1 counterexample: an add row with a null
identity.  The first application's `fillna` turns the null identity into
the string "Unknown", so re-applying the batch does not recognize the
row as already applied and appends a second copy. -/
def c1base : Table := ⟨["agent_id", "name"], []⟩

def c1delta : Table := ⟨["agent_id", "action", "name"], [[.na, .s "add", .s "Y"]]⟩

/-- C1 counterexample: a batch with no duplicate-within-batch identities
for which applying twice differs from applying once. -/
theorem C1_counterexample :
    (colVals c1delta "agent_id").Nodup ∧
    (apply_delta c1base c1delta "agent_id").map Table.rows =
      .ok [[.s "Unknown", .s "Y"]] ∧
    ((apply_delta c1base c1delta "agent_id").bind
        (fun t => apply_delta t c1delta "agent_id")).map Table.rows =
      .ok [[.s "Unknown", .s "Y"], [.s "Unknown", .s "Y"]] ∧
    (apply_delta c1base c1delta "agent_id").bind
        (fun t => apply_delta t c1delta "agent_id") ≠
      apply_delta c1base c1delta "agent_id" :=
  ⟨by decide, by rfl, by rfl, by decide⟩

/-- C1 (amended): the delta merge is idempotent for batches with no
duplicate-within-batch identities, provided additionally that every
identity cell of the baseline and of the batch is non-null (`fillna`
rewrites null identities to the string "Unknown", which breaks
recognition on re-application). -/
theorem C1_idempotence_amended {base delta : Table} {id : String} {out : Table}
    (hbase : ∀ v ∈ colVals base id, v ≠ .na)
    (hdelta : ∀ v ∈ colVals delta id, v ≠ .na)
    (hnd : (colVals delta id).Nodup)
    (h : apply_delta base delta id = .ok out) :
    apply_delta out delta id = .ok out := by
  obtain ⟨hact, hval, hidd, o1, o2, hs1, hs2, hs3⟩ := apply_delta_ok_inv h
  have ho1def : ∀ v ∈ colVals o1 id, v ≠ .na := by
    rcases stepDelete_ok_cases hs1 with ⟨-, rfl⟩ | ⟨-, -, rfl⟩
    · exact hbase
    · intro v hv
      exact hbase v (mem_colVals_delRows.mp hv).1
  have ho1del : ∀ r ∈ o1.rows, cellAt o1.cols r id ∉ deletesOf delta id := by
    rcases stepDelete_ok_cases hs1 with ⟨hnil, rfl⟩ | ⟨-, -, rfl⟩
    · intro r hr
      rw [hnil]
      exact List.not_mem_nil _
    · intro r hr
      have := List.mem_filter.mp (show r ∈ base.rows.filter _ from hr)
      simpa using this.2
  have ho1mem : deletesOf delta id ≠ [] → id ∈ o1.cols := by
    intro hne
    rcases stepDelete_ok_cases hs1 with ⟨hnil, rfl⟩ | ⟨-, hm, rfl⟩
    · exact absurd hnil hne
    · exact hm
  rw [apply_delta, if_neg (not_not.mpr hact),
    if_neg (by simp [List.isEmpty_iff, hval]), if_neg (not_not.mpr hidd)]
  by_cases hUe : (updatesOf delta).rows = []
  · have ho2eq : o2 = o1 := by
      rcases stepUpsert_ok_cases hs2 with ⟨-, h2⟩ | ⟨hne2, -⟩
      · exact h2
      · exact absurd hUe hne2
    by_cases hAe : (addsOf delta).rows = []
    · -- delete-only batch: the output is the filtered baseline, and
      -- filtering again removes nothing
      have houteq : out = o1 := by
        rcases stepUpsert_ok_cases hs3 with ⟨-, h3⟩ | ⟨hne3, -⟩
        · rw [h3, ho2eq]
        · exact absurd hAe hne3
      subst houteq
      rw [stepDelete_stable ho1mem ho1del, exceptBind_ok,
        stepUpsert_empty hUe, exceptBind_ok, stepUpsert_empty hAe, exceptBind_ok]
      rfl
    · -- add-only batch
      obtain ⟨hmo2, hmbA, houtsh⟩ := stepUpsert_ok_shape hAe hs3
      have hmo1A : id ∈ o1.cols := by
        rw [← ho2eq]
        exact hmo2
      have hneact : id ≠ "action" := by
        have hmb := hmbA
        rw [addsOf_cols hact] at hmb
        simpa using (List.mem_filter.mp hmb).2
      obtain ⟨hUdef, hAdef, hUA, hAU, hDU, hDA⟩ := block_id_facts hact hdelta hnd hneact
      rw [ho2eq] at houtsh
      have hidFC : id ∈ (concatTables (delRows o1 id (colVals (addsOf delta) id)) (addsOf delta)).cols :=
        mem_concat_cols_left (show id ∈ (delRows o1 id (colVals (addsOf delta) id)).cols from hmo1A)
      have hout : out = ⟨(concatTables (delRows o1 id (colVals (addsOf delta) id)) (addsOf delta)).cols, ((((delRows o1 id (colVals (addsOf delta) id)).rows.map (padRow (((concatTables (delRows o1 id (colVals (addsOf delta) id)) (addsOf delta)).cols).length - (delRows o1 id (colVals (addsOf delta) id)).cols.length))).map (List.map fillCell)) ++ (((addsOf delta).rows.map (realign (addsOf delta).cols ((concatTables (delRows o1 id (colVals (addsOf delta) id)) (addsOf delta)).cols))).map (List.map fillCell))) ++ []⟩ := by
        rw [houtsh]
        refine table_eq_mk rfl ?_
        rw [List.append_nil, fill_concat_rows]
      have hP1fact : ∀ r ∈ (((delRows o1 id (colVals (addsOf delta) id)).rows.map (padRow (((concatTables (delRows o1 id (colVals (addsOf delta) id)) (addsOf delta)).cols).length - (delRows o1 id (colVals (addsOf delta) id)).cols.length))).map (List.map fillCell)), List.map fillCell r = r ∧
          cellAt ((concatTables (delRows o1 id (colVals (addsOf delta) id)) (addsOf delta)).cols) r id ∉ (colVals (addsOf delta) id) ∧ cellAt ((concatTables (delRows o1 id (colVals (addsOf delta) id)) (addsOf delta)).cols) r id ∉ deletesOf delta id := by
        intro r hr
        obtain ⟨rp, hrp, rfl⟩ := List.mem_map.mp hr
        obtain ⟨r0, hr0, rfl⟩ := List.mem_map.mp hrp
        have hr0f := List.mem_filter.mp (show r0 ∈ o1.rows.filter
          (fun r => decide (cellAt o1.cols r id ∉ (colVals (addsOf delta) id))) from hr0)
        have hna : cellAt o1.cols r0 id ≠ .na := ho1def _ (List.mem_map_of_mem _ hr0f.1)
        have hcell : cellAt ((concatTables (delRows o1 id (colVals (addsOf delta) id)) (addsOf delta)).cols) (List.map fillCell
            (padRow (((concatTables (delRows o1 id (colVals (addsOf delta) id)) (addsOf delta)).cols).length - (delRows o1 id (colVals (addsOf delta) id)).cols.length) r0)) id = cellAt o1.cols r0 id :=
          cellAt_fill_pad (show id ∈ (delRows o1 id (colVals (addsOf delta) id)).cols from hmo1A) hna
        refine ⟨map_fill_idem _, ?_, ?_⟩
        · rw [hcell]
          simpa using hr0f.2
        · rw [hcell]
          exact ho1del r0 hr0f.1
      have hA2fact : ∀ r ∈ (((addsOf delta).rows.map (realign (addsOf delta).cols ((concatTables (delRows o1 id (colVals (addsOf delta) id)) (addsOf delta)).cols))).map (List.map fillCell)), List.map fillCell r = r ∧ cellAt ((concatTables (delRows o1 id (colVals (addsOf delta) id)) (addsOf delta)).cols) r id ∈ (colVals (addsOf delta) id) := by
        intro r hr
        obtain ⟨rp, hrp, rfl⟩ := List.mem_map.mp hr
        obtain ⟨b, hb, rfl⟩ := List.mem_map.mp hrp
        have hbmem : cellAt (addsOf delta).cols b id ∈ (colVals (addsOf delta) id) := List.mem_map_of_mem _ hb
        have hcell : cellAt ((concatTables (delRows o1 id (colVals (addsOf delta) id)) (addsOf delta)).cols) ((realign (addsOf delta).cols ((concatTables (delRows o1 id (colVals (addsOf delta) id)) (addsOf delta)).cols) b).map fillCell) id =
            fillCell (cellAt (addsOf delta).cols b id) := cellAt_fill_realign hidFC
        refine ⟨map_fill_idem _, ?_⟩
        rw [hcell, fillCell_of_ne_na (hAdef _ hbmem)]
        exact hbmem
      have hdrowsC : ∀ r ∈ ((((delRows o1 id (colVals (addsOf delta) id)).rows.map (padRow (((concatTables (delRows o1 id (colVals (addsOf delta) id)) (addsOf delta)).cols).length - (delRows o1 id (colVals (addsOf delta) id)).cols.length))).map (List.map fillCell)) ++ (((addsOf delta).rows.map (realign (addsOf delta).cols ((concatTables (delRows o1 id (colVals (addsOf delta) id)) (addsOf delta)).cols))).map (List.map fillCell))) ++ ([] : List (List Val)),
          cellAt ((concatTables (delRows o1 id (colVals (addsOf delta) id)) (addsOf delta)).cols) r id ∉ deletesOf delta id := by
        intro r hr
        rcases List.mem_append.mp hr with hr2 | hr3
        · rcases List.mem_append.mp hr2 with hrP | hrA
          · exact (hP1fact r hrP).2.2
          · intro hc
            exact hDA _ hc (hA2fact r hrA).2
        · exact absurd hr3 (List.not_mem_nil r)
      rw [hout,
        @stepDelete_stable id (deletesOf delta id) ⟨(concatTables (delRows o1 id (colVals (addsOf delta) id)) (addsOf delta)).cols, ((((delRows o1 id (colVals (addsOf delta) id)).rows.map (padRow (((concatTables (delRows o1 id (colVals (addsOf delta) id)) (addsOf delta)).cols).length - (delRows o1 id (colVals (addsOf delta) id)).cols.length))).map (List.map fillCell)) ++ (((addsOf delta).rows.map (realign (addsOf delta).cols ((concatTables (delRows o1 id (colVals (addsOf delta) id)) (addsOf delta)).cols))).map (List.map fillCell))) ++ []⟩
          (fun _ => hidFC) hdrowsC, exceptBind_ok,
        stepUpsert_empty hUe, exceptBind_ok,
        @stepUpsert_stable id (addsOf delta) ((concatTables (delRows o1 id (colVals (addsOf delta) id)) (addsOf delta)).cols) (((delRows o1 id (colVals (addsOf delta) id)).rows.map (padRow (((concatTables (delRows o1 id (colVals (addsOf delta) id)) (addsOf delta)).cols).length - (delRows o1 id (colVals (addsOf delta) id)).cols.length))).map (List.map fillCell)) (((addsOf delta).rows.map (realign (addsOf delta).cols ((concatTables (delRows o1 id (colVals (addsOf delta) id)) (addsOf delta)).cols))).map (List.map fillCell)) [] hAe hidFC hmbA
          (fun c hc => mem_concat_cols_right hc) hAdef
          (fun r hr => ⟨(hP1fact r hr).2.1, (hP1fact r hr).1⟩)
          (fun r hr => absurd hr (List.not_mem_nil r)) (by rw [List.map_map]; rfl),
        exceptBind_ok]
      exact congrArg Except.ok (congrArg (Table.mk ((concatTables (delRows o1 id (colVals (addsOf delta) id)) (addsOf delta)).cols)) (by simp))
  · -- the update block is nonempty
    obtain ⟨hmo1u, hmbU, ho2sh⟩ := stepUpsert_ok_shape hUe hs2
    have hneact : id ≠ "action" := by
      have hmb := hmbU
      rw [updatesOf_cols hact] at hmb
      simpa using (List.mem_filter.mp hmb).2
    obtain ⟨hUdef, hAdef, hUA, hAU, hDU, hDA⟩ := block_id_facts hact hdelta hnd hneact
    have hidF2 : id ∈ (concatTables (delRows o1 id (colVals (updatesOf delta) id)) (updatesOf delta)).cols :=
      mem_concat_cols_left (show id ∈ (delRows o1 id (colVals (updatesOf delta) id)).cols from hmo1u)
    have ho2cols : o2.cols = (concatTables (delRows o1 id (colVals (updatesOf delta) id)) (updatesOf delta)).cols := by
      rw [ho2sh]
      rfl
    have ho2rows : o2.rows = (((delRows o1 id (colVals (updatesOf delta) id)).rows.map (padRow (((concatTables (delRows o1 id (colVals (updatesOf delta) id)) (updatesOf delta)).cols).length - (delRows o1 id (colVals (updatesOf delta) id)).cols.length))).map (List.map fillCell)) ++ (((updatesOf delta).rows.map (realign (updatesOf delta).cols ((concatTables (delRows o1 id (colVals (updatesOf delta) id)) (updatesOf delta)).cols))).map (List.map fillCell)) := by
      rw [ho2sh, fill_concat_rows]
    have hP1fact : ∀ r ∈ (((delRows o1 id (colVals (updatesOf delta) id)).rows.map (padRow (((concatTables (delRows o1 id (colVals (updatesOf delta) id)) (updatesOf delta)).cols).length - (delRows o1 id (colVals (updatesOf delta) id)).cols.length))).map (List.map fillCell)), List.map fillCell r = r ∧
        cellAt ((concatTables (delRows o1 id (colVals (updatesOf delta) id)) (updatesOf delta)).cols) r id ∉ (colVals (updatesOf delta) id) ∧ cellAt ((concatTables (delRows o1 id (colVals (updatesOf delta) id)) (updatesOf delta)).cols) r id ∉ deletesOf delta id := by
      intro r hr
      obtain ⟨rp, hrp, rfl⟩ := List.mem_map.mp hr
      obtain ⟨r0, hr0, rfl⟩ := List.mem_map.mp hrp
      have hr0f := List.mem_filter.mp (show r0 ∈ o1.rows.filter
        (fun r => decide (cellAt o1.cols r id ∉ (colVals (updatesOf delta) id))) from hr0)
      have hna : cellAt o1.cols r0 id ≠ .na := ho1def _ (List.mem_map_of_mem _ hr0f.1)
      have hcell : cellAt ((concatTables (delRows o1 id (colVals (updatesOf delta) id)) (updatesOf delta)).cols) (List.map fillCell
          (padRow (((concatTables (delRows o1 id (colVals (updatesOf delta) id)) (updatesOf delta)).cols).length - (delRows o1 id (colVals (updatesOf delta) id)).cols.length) r0)) id = cellAt o1.cols r0 id :=
        cellAt_fill_pad (show id ∈ (delRows o1 id (colVals (updatesOf delta) id)).cols from hmo1u) hna
      refine ⟨map_fill_idem _, ?_, ?_⟩
      · rw [hcell]
        simpa using hr0f.2
      · rw [hcell]
        exact ho1del r0 hr0f.1
    have hU2fact : ∀ r ∈ (((updatesOf delta).rows.map (realign (updatesOf delta).cols ((concatTables (delRows o1 id (colVals (updatesOf delta) id)) (updatesOf delta)).cols))).map (List.map fillCell)), List.map fillCell r = r ∧ cellAt ((concatTables (delRows o1 id (colVals (updatesOf delta) id)) (updatesOf delta)).cols) r id ∈ (colVals (updatesOf delta) id) := by
      intro r hr
      obtain ⟨rp, hrp, rfl⟩ := List.mem_map.mp hr
      obtain ⟨b, hb, rfl⟩ := List.mem_map.mp hrp
      have hbmem : cellAt (updatesOf delta).cols b id ∈ (colVals (updatesOf delta) id) := List.mem_map_of_mem _ hb
      have hcell : cellAt ((concatTables (delRows o1 id (colVals (updatesOf delta) id)) (updatesOf delta)).cols) ((realign (updatesOf delta).cols ((concatTables (delRows o1 id (colVals (updatesOf delta) id)) (updatesOf delta)).cols) b).map fillCell) id =
          fillCell (cellAt (updatesOf delta).cols b id) := cellAt_fill_realign hidF2
      refine ⟨map_fill_idem _, ?_⟩
      rw [hcell, fillCell_of_ne_na (hUdef _ hbmem)]
      exact hbmem
    by_cases hAe : (addsOf delta).rows = []
    · -- update-only batch
      have houteq : out = o2 := by
        rcases stepUpsert_ok_cases hs3 with ⟨-, h3⟩ | ⟨hne3, -⟩
        · exact h3
        · exact absurd hAe hne3
      have hout : out = ⟨(concatTables (delRows o1 id (colVals (updatesOf delta) id)) (updatesOf delta)).cols, ((((delRows o1 id (colVals (updatesOf delta) id)).rows.map (padRow (((concatTables (delRows o1 id (colVals (updatesOf delta) id)) (updatesOf delta)).cols).length - (delRows o1 id (colVals (updatesOf delta) id)).cols.length))).map (List.map fillCell)) ++ (((updatesOf delta).rows.map (realign (updatesOf delta).cols ((concatTables (delRows o1 id (colVals (updatesOf delta) id)) (updatesOf delta)).cols))).map (List.map fillCell))) ++ []⟩ := by
        rw [houteq]
        refine table_eq_mk ho2cols ?_
        rw [ho2rows, List.append_nil]
      have hdrowsB : ∀ r ∈ ((((delRows o1 id (colVals (updatesOf delta) id)).rows.map (padRow (((concatTables (delRows o1 id (colVals (updatesOf delta) id)) (updatesOf delta)).cols).length - (delRows o1 id (colVals (updatesOf delta) id)).cols.length))).map (List.map fillCell)) ++ (((updatesOf delta).rows.map (realign (updatesOf delta).cols ((concatTables (delRows o1 id (colVals (updatesOf delta) id)) (updatesOf delta)).cols))).map (List.map fillCell))) ++ ([] : List (List Val)),
          cellAt ((concatTables (delRows o1 id (colVals (updatesOf delta) id)) (updatesOf delta)).cols) r id ∉ deletesOf delta id := by
        intro r hr
        rcases List.mem_append.mp hr with hr2 | hr3
        · rcases List.mem_append.mp hr2 with hrP | hrU
          · exact (hP1fact r hrP).2.2
          · intro hc
            exact hDU _ hc (hU2fact r hrU).2
        · exact absurd hr3 (List.not_mem_nil r)
      rw [hout,
        @stepDelete_stable id (deletesOf delta id) ⟨(concatTables (delRows o1 id (colVals (updatesOf delta) id)) (updatesOf delta)).cols, ((((delRows o1 id (colVals (updatesOf delta) id)).rows.map (padRow (((concatTables (delRows o1 id (colVals (updatesOf delta) id)) (updatesOf delta)).cols).length - (delRows o1 id (colVals (updatesOf delta) id)).cols.length))).map (List.map fillCell)) ++ (((updatesOf delta).rows.map (realign (updatesOf delta).cols ((concatTables (delRows o1 id (colVals (updatesOf delta) id)) (updatesOf delta)).cols))).map (List.map fillCell))) ++ []⟩
          (fun _ => hidF2) hdrowsB, exceptBind_ok,
        @stepUpsert_stable id (updatesOf delta) ((concatTables (delRows o1 id (colVals (updatesOf delta) id)) (updatesOf delta)).cols) (((delRows o1 id (colVals (updatesOf delta) id)).rows.map (padRow (((concatTables (delRows o1 id (colVals (updatesOf delta) id)) (updatesOf delta)).cols).length - (delRows o1 id (colVals (updatesOf delta) id)).cols.length))).map (List.map fillCell)) (((updatesOf delta).rows.map (realign (updatesOf delta).cols ((concatTables (delRows o1 id (colVals (updatesOf delta) id)) (updatesOf delta)).cols))).map (List.map fillCell)) [] hUe hidF2 hmbU
          (fun c hc => mem_concat_cols_right hc) hUdef
          (fun r hr => ⟨(hP1fact r hr).2.1, (hP1fact r hr).1⟩)
          (fun r hr => absurd hr (List.not_mem_nil r)) (by rw [List.map_map]; rfl),
        exceptBind_ok, stepUpsert_empty hAe, exceptBind_ok]
      exact congrArg Except.ok (congrArg (Table.mk ((concatTables (delRows o1 id (colVals (updatesOf delta) id)) (updatesOf delta)).cols)) (by simp))
    · -- both the update and the add block are nonempty
      obtain ⟨hmo2a, hmbA, houtsh⟩ := stepUpsert_ok_shape hAe hs3
      have hXcols : (delRows o2 id (colVals (addsOf delta) id)).cols = (concatTables (delRows o1 id (colVals (updatesOf delta) id)) (updatesOf delta)).cols := by
        rw [delRows_cols, ho2cols]
      have hfilA : (addsOf delta).cols.filter (fun c => decide (c ∉ (delRows o2 id (colVals (addsOf delta) id)).cols)) = [] := by
        rw [List.filter_eq_nil_iff]
        intro c hc
        rw [hXcols]
        simp only [decide_eq_true_eq, not_not]
        exact mem_concat_cols_right (blockCols_eq delta ▸ hc)
      have hA2factD : ∀ r ∈ (((addsOf delta).rows.map (realign (addsOf delta).cols ((concatTables (delRows o1 id (colVals (updatesOf delta) id)) (updatesOf delta)).cols))).map (List.map fillCell)), List.map fillCell r = r ∧ cellAt ((concatTables (delRows o1 id (colVals (updatesOf delta) id)) (updatesOf delta)).cols) r id ∈ (colVals (addsOf delta) id) := by
        intro r hr
        obtain ⟨rp, hrp, rfl⟩ := List.mem_map.mp hr
        obtain ⟨b, hb, rfl⟩ := List.mem_map.mp hrp
        have hbmem : cellAt (addsOf delta).cols b id ∈ (colVals (addsOf delta) id) := List.mem_map_of_mem _ hb
        have hcell : cellAt ((concatTables (delRows o1 id (colVals (updatesOf delta) id)) (updatesOf delta)).cols) ((realign (addsOf delta).cols ((concatTables (delRows o1 id (colVals (updatesOf delta) id)) (updatesOf delta)).cols) b).map fillCell) id =
            fillCell (cellAt (addsOf delta).cols b id) := cellAt_fill_realign hidF2
        refine ⟨map_fill_idem _, ?_⟩
        rw [hcell, fillCell_of_ne_na (hAdef _ hbmem)]
        exact hbmem
      have hU2keep : (((updatesOf delta).rows.map (realign (updatesOf delta).cols ((concatTables (delRows o1 id (colVals (updatesOf delta) id)) (updatesOf delta)).cols))).map (List.map fillCell)).filter (fun r => decide (cellAt ((concatTables (delRows o1 id (colVals (updatesOf delta) id)) (updatesOf delta)).cols) r id ∉ (colVals (addsOf delta) id))) = (((updatesOf delta).rows.map (realign (updatesOf delta).cols ((concatTables (delRows o1 id (colVals (updatesOf delta) id)) (updatesOf delta)).cols))).map (List.map fillCell)) := by
        refine List.filter_eq_self.mpr ?_
        intro r hr
        simpa using hUA _ (hU2fact r hr).2
      have hout : out = ⟨(concatTables (delRows o1 id (colVals (updatesOf delta) id)) (updatesOf delta)).cols, (((((delRows o1 id (colVals (updatesOf delta) id)).rows.map (padRow (((concatTables (delRows o1 id (colVals (updatesOf delta) id)) (updatesOf delta)).cols).length - (delRows o1 id (colVals (updatesOf delta) id)).cols.length))).map (List.map fillCell)).filter (fun r => decide (cellAt ((concatTables (delRows o1 id (colVals (updatesOf delta) id)) (updatesOf delta)).cols) r id ∉ (colVals (addsOf delta) id)))) ++ (((updatesOf delta).rows.map (realign (updatesOf delta).cols ((concatTables (delRows o1 id (colVals (updatesOf delta) id)) (updatesOf delta)).cols))).map (List.map fillCell))) ++ (((addsOf delta).rows.map (realign (addsOf delta).cols ((concatTables (delRows o1 id (colVals (updatesOf delta) id)) (updatesOf delta)).cols))).map (List.map fillCell))⟩ := by
        rw [houtsh]
        refine table_eq_mk ?_ ?_
        · show (delRows o2 id (colVals (addsOf delta) id)).cols ++ (addsOf delta).cols.filter (fun c => decide (c ∉ (delRows o2 id (colVals (addsOf delta) id)).cols)) = (concatTables (delRows o1 id (colVals (updatesOf delta) id)) (updatesOf delta)).cols
          rw [hfilA, List.append_nil, hXcols]
        · rw [fill_concat_rows]
          have hk : (concatTables (delRows o2 id (colVals (addsOf delta) id)) (addsOf delta)).cols.length - (delRows o2 id (colVals (addsOf delta) id)).cols.length = 0 := by
            rw [concatTables_cols, hfilA, List.append_nil]
            exact Nat.sub_self _
          have hNC : (concatTables (delRows o2 id (colVals (addsOf delta) id)) (addsOf delta)).cols = (concatTables (delRows o1 id (colVals (updatesOf delta) id)) (updatesOf delta)).cols := by
            rw [concatTables_cols, hfilA, List.append_nil, hXcols]
          have hXrows : (delRows o2 id (colVals (addsOf delta) id)).rows = ((((delRows o1 id (colVals (updatesOf delta) id)).rows.map (padRow (((concatTables (delRows o1 id (colVals (updatesOf delta) id)) (updatesOf delta)).cols).length - (delRows o1 id (colVals (updatesOf delta) id)).cols.length))).map (List.map fillCell)).filter (fun r => decide (cellAt ((concatTables (delRows o1 id (colVals (updatesOf delta) id)) (updatesOf delta)).cols) r id ∉ (colVals (addsOf delta) id)))) ++ (((updatesOf delta).rows.map (realign (updatesOf delta).cols ((concatTables (delRows o1 id (colVals (updatesOf delta) id)) (updatesOf delta)).cols))).map (List.map fillCell)) := by
            show o2.rows.filter (fun r => decide (cellAt o2.cols r id ∉ (colVals (addsOf delta) id))) = ((((delRows o1 id (colVals (updatesOf delta) id)).rows.map (padRow (((concatTables (delRows o1 id (colVals (updatesOf delta) id)) (updatesOf delta)).cols).length - (delRows o1 id (colVals (updatesOf delta) id)).cols.length))).map (List.map fillCell)).filter (fun r => decide (cellAt ((concatTables (delRows o1 id (colVals (updatesOf delta) id)) (updatesOf delta)).cols) r id ∉ (colVals (addsOf delta) id)))) ++ (((updatesOf delta).rows.map (realign (updatesOf delta).cols ((concatTables (delRows o1 id (colVals (updatesOf delta) id)) (updatesOf delta)).cols))).map (List.map fillCell))
            rw [ho2cols, ho2rows, List.filter_append, hU2keep]
          rw [hk, hNC, hXrows]
          have hfix : ∀ r ∈ ((((delRows o1 id (colVals (updatesOf delta) id)).rows.map (padRow (((concatTables (delRows o1 id (colVals (updatesOf delta) id)) (updatesOf delta)).cols).length - (delRows o1 id (colVals (updatesOf delta) id)).cols.length))).map (List.map fillCell)).filter (fun r => decide (cellAt ((concatTables (delRows o1 id (colVals (updatesOf delta) id)) (updatesOf delta)).cols) r id ∉ (colVals (addsOf delta) id)))) ++ (((updatesOf delta).rows.map (realign (updatesOf delta).cols ((concatTables (delRows o1 id (colVals (updatesOf delta) id)) (updatesOf delta)).cols))).map (List.map fillCell)), List.map fillCell (padRow 0 r) = r := by
            intro r hr
            rw [padRow_zero]
            rcases List.mem_append.mp hr with hrS | hrU
            · exact (hP1fact r (List.mem_of_mem_filter hrS)).1
            · exact (hU2fact r hrU).1
          rw [List.map_map]
          exact congrArg (fun L => L ++ (((addsOf delta).rows.map (realign (addsOf delta).cols ((concatTables (delRows o1 id (colVals (updatesOf delta) id)) (updatesOf delta)).cols))).map (List.map fillCell)))
            ((List.map_congr_left hfix).trans (List.map_id' _))
      have hSfact : ∀ r ∈ ((((delRows o1 id (colVals (updatesOf delta) id)).rows.map (padRow (((concatTables (delRows o1 id (colVals (updatesOf delta) id)) (updatesOf delta)).cols).length - (delRows o1 id (colVals (updatesOf delta) id)).cols.length))).map (List.map fillCell)).filter (fun r => decide (cellAt ((concatTables (delRows o1 id (colVals (updatesOf delta) id)) (updatesOf delta)).cols) r id ∉ (colVals (addsOf delta) id)))), cellAt ((concatTables (delRows o1 id (colVals (updatesOf delta) id)) (updatesOf delta)).cols) r id ∉ (colVals (addsOf delta) id) := by
        intro r hr
        have := (List.mem_filter.mp hr).2
        simpa using this
      have hdrowsD : ∀ r ∈ (((((delRows o1 id (colVals (updatesOf delta) id)).rows.map (padRow (((concatTables (delRows o1 id (colVals (updatesOf delta) id)) (updatesOf delta)).cols).length - (delRows o1 id (colVals (updatesOf delta) id)).cols.length))).map (List.map fillCell)).filter (fun r => decide (cellAt ((concatTables (delRows o1 id (colVals (updatesOf delta) id)) (updatesOf delta)).cols) r id ∉ (colVals (addsOf delta) id)))) ++ (((updatesOf delta).rows.map (realign (updatesOf delta).cols ((concatTables (delRows o1 id (colVals (updatesOf delta) id)) (updatesOf delta)).cols))).map (List.map fillCell))) ++ (((addsOf delta).rows.map (realign (addsOf delta).cols ((concatTables (delRows o1 id (colVals (updatesOf delta) id)) (updatesOf delta)).cols))).map (List.map fillCell)),
          cellAt ((concatTables (delRows o1 id (colVals (updatesOf delta) id)) (updatesOf delta)).cols) r id ∉ deletesOf delta id := by
        intro r hr
        rcases List.mem_append.mp hr with hr2 | hr3
        · rcases List.mem_append.mp hr2 with hrS | hrU
          · exact (hP1fact r (List.mem_of_mem_filter hrS)).2.2
          · intro hc
            exact hDU _ hc (hU2fact r hrU).2
        · intro hc
          exact hDA _ hc (hA2factD r hr3).2
      rw [hout,
        @stepDelete_stable id (deletesOf delta id) ⟨(concatTables (delRows o1 id (colVals (updatesOf delta) id)) (updatesOf delta)).cols, (((((delRows o1 id (colVals (updatesOf delta) id)).rows.map (padRow (((concatTables (delRows o1 id (colVals (updatesOf delta) id)) (updatesOf delta)).cols).length - (delRows o1 id (colVals (updatesOf delta) id)).cols.length))).map (List.map fillCell)).filter (fun r => decide (cellAt ((concatTables (delRows o1 id (colVals (updatesOf delta) id)) (updatesOf delta)).cols) r id ∉ (colVals (addsOf delta) id)))) ++ (((updatesOf delta).rows.map (realign (updatesOf delta).cols ((concatTables (delRows o1 id (colVals (updatesOf delta) id)) (updatesOf delta)).cols))).map (List.map fillCell))) ++ (((addsOf delta).rows.map (realign (addsOf delta).cols ((concatTables (delRows o1 id (colVals (updatesOf delta) id)) (updatesOf delta)).cols))).map (List.map fillCell))⟩
          (fun _ => hidF2) hdrowsD, exceptBind_ok,
        @stepUpsert_stable id (updatesOf delta) ((concatTables (delRows o1 id (colVals (updatesOf delta) id)) (updatesOf delta)).cols) ((((delRows o1 id (colVals (updatesOf delta) id)).rows.map (padRow (((concatTables (delRows o1 id (colVals (updatesOf delta) id)) (updatesOf delta)).cols).length - (delRows o1 id (colVals (updatesOf delta) id)).cols.length))).map (List.map fillCell)).filter (fun r => decide (cellAt ((concatTables (delRows o1 id (colVals (updatesOf delta) id)) (updatesOf delta)).cols) r id ∉ (colVals (addsOf delta) id)))) (((updatesOf delta).rows.map (realign (updatesOf delta).cols ((concatTables (delRows o1 id (colVals (updatesOf delta) id)) (updatesOf delta)).cols))).map (List.map fillCell)) (((addsOf delta).rows.map (realign (addsOf delta).cols ((concatTables (delRows o1 id (colVals (updatesOf delta) id)) (updatesOf delta)).cols))).map (List.map fillCell)) hUe hidF2 hmbU
          (fun c hc => mem_concat_cols_right hc) hUdef
          (fun r hr => ⟨(hP1fact r (List.mem_of_mem_filter hr)).2.1,
            (hP1fact r (List.mem_of_mem_filter hr)).1⟩)
          (fun r hr => ⟨hAU _ (hA2factD r hr).2, (hA2factD r hr).1⟩)
          (by rw [List.map_map]; rfl), exceptBind_ok,
        @stepUpsert_stable id (addsOf delta) ((concatTables (delRows o1 id (colVals (updatesOf delta) id)) (updatesOf delta)).cols) ((((delRows o1 id (colVals (updatesOf delta) id)).rows.map (padRow (((concatTables (delRows o1 id (colVals (updatesOf delta) id)) (updatesOf delta)).cols).length - (delRows o1 id (colVals (updatesOf delta) id)).cols.length))).map (List.map fillCell)).filter (fun r => decide (cellAt ((concatTables (delRows o1 id (colVals (updatesOf delta) id)) (updatesOf delta)).cols) r id ∉ (colVals (addsOf delta) id)))) (((addsOf delta).rows.map (realign (addsOf delta).cols ((concatTables (delRows o1 id (colVals (updatesOf delta) id)) (updatesOf delta)).cols))).map (List.map fillCell)) (((updatesOf delta).rows.map (realign (updatesOf delta).cols ((concatTables (delRows o1 id (colVals (updatesOf delta) id)) (updatesOf delta)).cols))).map (List.map fillCell)) hAe hidF2 hmbA
          (fun c hc => mem_concat_cols_right (blockCols_eq delta ▸ hc)) hAdef
          (fun r hr => ⟨hSfact r hr, (hP1fact r (List.mem_of_mem_filter hr)).1⟩)
          (fun r hr => ⟨hUA _ (hU2fact r hr).2, (hU2fact r hr).1⟩)
          (by rw [List.map_map]; rfl), exceptBind_ok]
      rfl

/-- C1 witness: the spec's agents scenario (update A1, add A3, delete A2)
satisfies the amended hypotheses, and re-applying the batch leaves the
once-merged table unchanged. -/
theorem C1_witness :
    (∀ v ∈ colVals (⟨["agent_id", "name"],
        [[.s "A1", .s "old1"], [.s "A2", .s "old2"]]⟩ : Table) "agent_id", v ≠ .na) ∧
    (∀ v ∈ colVals (⟨["agent_id", "action", "name"],
        [[.s "A1", .s "update", .s "X"], [.s "A3", .s "add", .s "Y"],
         [.s "A2", .s "delete", .na]]⟩ : Table) "agent_id", v ≠ .na) ∧
    apply_delta
      (⟨["agent_id", "name"], [[.s "A1", .s "old1"], [.s "A2", .s "old2"]]⟩ : Table)
      (⟨["agent_id", "action", "name"],
        [[.s "A1", .s "update", .s "X"], [.s "A3", .s "add", .s "Y"],
         [.s "A2", .s "delete", .na]]⟩ : Table) "agent_id" =
      .ok ⟨["agent_id", "name"], [[.s "A1", .s "X"], [.s "A3", .s "Y"]]⟩ ∧
    apply_delta
      (⟨["agent_id", "name"], [[.s "A1", .s "X"], [.s "A3", .s "Y"]]⟩ : Table)
      (⟨["agent_id", "action", "name"],
        [[.s "A1", .s "update", .s "X"], [.s "A3", .s "add", .s "Y"],
         [.s "A2", .s "delete", .na]]⟩ : Table) "agent_id" =
      .ok ⟨["agent_id", "name"], [[.s "A1", .s "X"], [.s "A3", .s "Y"]]⟩ :=
  ⟨by decide, by decide, by rfl,
    @C1_idempotence_amended
      ⟨["agent_id", "name"], [[.s "A1", .s "old1"], [.s "A2", .s "old2"]]⟩
      ⟨["agent_id", "action", "name"],
        [[.s "A1", .s "update", .s "X"], [.s "A3", .s "add", .s "Y"],
         [.s "A2", .s "delete", .na]]⟩ "agent_id"
      ⟨["agent_id", "name"], [[.s "A1", .s "X"], [.s "A3", .s "Y"]]⟩
      (by decide) (by decide) (by decide) (by rfl)⟩

/-! ## C7: aggregation total -/

theorem sum_map_one {α : Type} (l : List α) : (l.map (fun _ => (1 : Nat))).sum = l.length := by
  induction l with
  | nil => rfl
  | cons a l ih =>
    simp only [List.map_cons, List.sum_cons, ih, List.length_cons]
    omega

theorem cellAt_append_row {cols : List String} {r : List Val} {v : Val} {c : String}
    (hlen : cols.length ≤ r.length) : cellAt cols (r ++ [v]) c = cellAt cols r c := by
  cases hk : idx? c cols with
  | none => simp [cellAt, hk]
  | some k =>
    have hkb : k < r.length := lt_of_lt_of_le (idx?_bound hk) hlen
    simp only [cellAt, hk]
    rw [List.getD_append _ _ _ _ hkb]

theorem setCol_wf_of_wf {t : Table} {c : String} {vs : List Val}
    (hwf : t.WF) (hlen : vs.length = t.rows.length) : (setCol t c vs).WF := by
  cases hk : idx? c t.cols with
  | some k =>
    have hmem : c ∈ t.cols := by
      by_contra hm
      rw [idx?_eq_none_iff.mpr hm] at hk
      exact Option.noConfusion hk
    exact setCol_wf hmem hwf
  | none =>
    simp only [setCol, hk]
    intro r hr
    obtain ⟨r0, hr0, v, -, rfl⟩ := exists_of_mem_zipWith hr
    simp [hwf r0 hr0]

theorem setCol_mem_cols {t : Table} {c c' : String} {vs : List Val} (hne : c' ≠ c) :
    c' ∈ (setCol t c vs).cols ↔ c' ∈ t.cols := by
  cases hk : idx? c t.cols with
  | some k => simp [setCol, hk]
  | none => simp [setCol, hk, hne]

theorem map_cellAt_zipWith_append {cols : List String} {c c' : String} (hmem : c' ∈ cols) :
    ∀ (rows : List (List Val)) (vs : List Val), vs.length = rows.length →
    (∀ r ∈ rows, r.length = cols.length) →
    (List.zipWith (fun r v => r ++ [v]) rows vs).map
      (fun r => cellAt (cols ++ [c]) r c') = rows.map (fun r => cellAt cols r c') := by
  intro rows
  induction rows with
  | nil => intro vs _ _; simp
  | cons r rs ih =>
    intro vs hlen hwf
    cases vs with
    | nil => exact absurd hlen (by simp)
    | cons v vs2 =>
      simp only [List.zipWith_cons_cons, List.map_cons]
      rw [cellAt_cols_ext hmem, cellAt_append_row (le_of_eq (hwf r (by simp)).symm),
        ih vs2 (by simpa using hlen) (fun x hx => hwf x (List.mem_cons_of_mem _ hx))]

theorem colVals_setCol_keep {t : Table} {c c' : String} {vs : List Val}
    (hwf : t.WF) (hmem : c' ∈ t.cols) (hlen : vs.length = t.rows.length) (hne : c' ≠ c) :
    colVals (setCol t c vs) c' = colVals t c' := by
  cases hk : idx? c t.cols with
  | some k =>
    have hmemc : c ∈ t.cols := by
      by_contra hm
      rw [idx?_eq_none_iff.mpr hm] at hk
      exact Option.noConfusion hk
    exact colVals_setCol_other hmemc hlen hne
  | none =>
    simp only [setCol, hk, colVals]
    exact map_cellAt_zipWith_append hmem t.rows vs hlen hwf

theorem filter_length_le_one_of_nodup_map {α β : Type} [DecidableEq β] {l : List α}
    {g : α → β} (hnd : (l.map g).Nodup) (v : β) :
    (l.filter (fun a => decide (g a = v))).length ≤ 1 := by
  have h1 : (l.filter (fun a => decide (g a = v))).length =
      (l.map g).countP (fun x => decide (x = v)) := by
    rw [← List.countP_eq_length_filter]
    exact (List.countP_map (fun x => decide (x = v)) g l).symm
  have h2 : (l.map g).countP (fun x => decide (x = v)) = (l.map g).count v := rfl
  rw [h1, h2]
  exact List.nodup_iff_count_le_one.mp hnd v

/-- The aggregation preserves the total row count: with no null
`interaction_id` cells, summing `total_interactions` over the groups
recovers the length of the grouped table. -/
theorem aggregate_total {t : Table}
    (hna : ∀ r ∈ t.rows, cellAt t.cols r "interaction_id" ≠ .na) :
    ((aggregate t).map (fun x => x.total_interactions)).sum = t.rows.length := by
  have hcongr : ∀ k ∈ (t.rows.map (groupKey t.cols)).dedup,
      (t.rows.filter (fun r => decide (groupKey t.cols r = k))).countP
        (fun r => decide (cellAt t.cols r "interaction_id" ≠ .na)) =
      @List.count (Val × Val × Val) instBEqOfDecidableEq k
        (t.rows.map (groupKey t.cols)) := by
    intro k _
    have ha : (t.rows.filter (fun r => decide (groupKey t.cols r = k))).countP
        (fun r => decide (cellAt t.cols r "interaction_id" ≠ .na)) =
        (t.rows.filter (fun r => decide (groupKey t.cols r = k))).length :=
      List.countP_eq_length.mpr (fun r hr =>
        decide_eq_true (hna r (List.mem_of_mem_filter hr)))
    rw [ha, ← List.countP_eq_length_filter,
      show @List.count (Val × Val × Val) instBEqOfDecidableEq k
          (t.rows.map (groupKey t.cols)) =
        List.countP (fun x => decide (x = k)) (t.rows.map (groupKey t.cols)) from rfl]
    exact (List.countP_map (fun x => decide (x = k)) (groupKey t.cols) t.rows).symm
  rw [aggregate, List.map_map]
  exact (congrArg List.sum (List.map_congr_left hcongr)).trans
    ((List.sum_map_count_dedup_eq_length _).trans (List.length_map _ _))

theorem mergeLeftAttr_ok_inv {t dim : Table} {key attr : String} {o : Table}
    (h : mergeLeftAttr t dim key attr = .ok o) :
    key ∈ dim.cols ∧ attr ∈ dim.cols ∧ key ∈ t.cols ∧
    o = ⟨(if attr ∈ t.cols
          then t.cols.map (fun c => if c = attr then c ++ "_x" else c)
          else t.cols) ++ [if attr ∈ t.cols then attr ++ "_y" else attr],
        t.rows.flatMap (fun r => if ((dim.rows.filter (fun dr => decide (cellAt dim.cols dr key = cellAt t.cols r key))).map (fun dr => cellAt dim.cols dr attr)).isEmpty then [r ++ [Val.na]] else ((dim.rows.filter (fun dr => decide (cellAt dim.cols dr key = cellAt t.cols r key))).map (fun dr => cellAt dim.cols dr attr)).map (fun v => r ++ [v]))⟩ := by
  rw [mergeLeftAttr] at h
  by_cases h1 : key ∉ dim.cols
  · rw [if_pos h1] at h
    exact Except.noConfusion h
  rw [if_neg h1] at h
  by_cases h2 : attr ∉ dim.cols
  · rw [if_pos h2] at h
    exact Except.noConfusion h
  rw [if_neg h2] at h
  by_cases h3 : key ∉ t.cols
  · rw [if_pos h3] at h
    exact Except.noConfusion h
  rw [if_neg h3] at h
  rw [Except.ok.injEq] at h
  exact ⟨not_not.mp h1, not_not.mp h2, not_not.mp h3, h.symm⟩

theorem mergeLeftAttr_cols_of_not_mem {t dim : Table} {key attr : String} {o : Table}
    (hnot : attr ∉ t.cols) (h : mergeLeftAttr t dim key attr = .ok o) :
    o.cols = t.cols ++ [attr] := by
  obtain ⟨-, -, -, rfl⟩ := mergeLeftAttr_ok_inv h
  simp [hnot]

theorem mergeLeftAttr_rows_mem {t dim : Table} {key attr : String} {o : Table}
    (h : mergeLeftAttr t dim key attr = .ok o) :
    ∀ r2 ∈ o.rows, ∃ r ∈ t.rows, ∃ v : Val, r2 = r ++ [v] := by
  obtain ⟨-, -, -, rfl⟩ := mergeLeftAttr_ok_inv h
  intro r2 hr2
  obtain ⟨r, hr, hmem⟩ := List.mem_flatMap.mp hr2
  refine ⟨r, hr, ?_⟩
  have hmem2 : r2 ∈ (if ((dim.rows.filter (fun dr => decide (cellAt dim.cols dr key = cellAt t.cols r key))).map (fun dr => cellAt dim.cols dr attr)).isEmpty then [r ++ [Val.na]]
      else ((dim.rows.filter (fun dr => decide (cellAt dim.cols dr key = cellAt t.cols r key))).map (fun dr => cellAt dim.cols dr attr)).map (fun v => r ++ [v])) := hmem
  by_cases hempty : ((dim.rows.filter (fun dr => decide (cellAt dim.cols dr key = cellAt t.cols r key))).map (fun dr => cellAt dim.cols dr attr)).isEmpty
  · rw [if_pos hempty] at hmem2
    exact ⟨Val.na, (List.mem_singleton.mp hmem2)⟩
  · rw [if_neg hempty] at hmem2
    obtain ⟨v, -, rfl⟩ := List.mem_map.mp hmem2
    exact ⟨v, rfl⟩

/-- With a duplicate-free join key in the dimension, every left row of the
merge produces exactly one output row. -/
theorem mergeLeftAttr_rows_length {t dim : Table} {key attr : String} {o : Table}
    (hnd : (colVals dim key).Nodup) (h : mergeLeftAttr t dim key attr = .ok o) :
    o.rows.length = t.rows.length := by
  obtain ⟨-, -, -, rfl⟩ := mergeLeftAttr_ok_inv h
  show (t.rows.flatMap (fun r => if ((dim.rows.filter (fun dr => decide (cellAt dim.cols dr key = cellAt t.cols r key))).map (fun dr => cellAt dim.cols dr attr)).isEmpty then [r ++ [Val.na]] else ((dim.rows.filter (fun dr => decide (cellAt dim.cols dr key = cellAt t.cols r key))).map (fun dr => cellAt dim.cols dr attr)).map (fun v => r ++ [v]))).length = t.rows.length
  rw [List.flatMap_def, List.length_flatten, List.map_map]
  have hone : ∀ r ∈ t.rows, ((fun r => if ((dim.rows.filter (fun dr => decide (cellAt dim.cols dr key = cellAt t.cols r key))).map (fun dr => cellAt dim.cols dr attr)).isEmpty then [r ++ [Val.na]] else ((dim.rows.filter (fun dr => decide (cellAt dim.cols dr key = cellAt t.cols r key))).map (fun dr => cellAt dim.cols dr attr)).map (fun v => r ++ [v])) r).length = (1 : Nat) := by
    intro r hr
    show (if ((dim.rows.filter (fun dr => decide (cellAt dim.cols dr key = cellAt t.cols r key))).map (fun dr => cellAt dim.cols dr attr)).isEmpty then [r ++ [Val.na]]
        else ((dim.rows.filter (fun dr => decide (cellAt dim.cols dr key = cellAt t.cols r key))).map (fun dr => cellAt dim.cols dr attr)).map (fun v => r ++ [v])).length = 1
    by_cases hempty : ((dim.rows.filter (fun dr => decide (cellAt dim.cols dr key = cellAt t.cols r key))).map (fun dr => cellAt dim.cols dr attr)).isEmpty
    · rw [if_pos hempty]
      rfl
    · rw [if_neg hempty, List.length_map, List.length_map]
      have hle : (dim.rows.filter
          (fun dr => decide (cellAt dim.cols dr key = cellAt t.cols r key))).length ≤ 1 :=
        filter_length_le_one_of_nodup_map hnd (cellAt t.cols r key)
      have hpos : 0 < (dim.rows.filter
          (fun dr => decide (cellAt dim.cols dr key = cellAt t.cols r key))).length := by
        have hne : ((dim.rows.filter (fun dr => decide (cellAt dim.cols dr key = cellAt t.cols r key))).map (fun dr => cellAt dim.cols dr attr)) ≠ [] := by
          simpa [List.isEmpty_iff] using hempty
        have h2 := List.length_pos.mpr hne
        simpa [List.length_map] using h2
      omega
  exact (congrArg List.sum (List.map_congr_left hone)).trans (sum_map_one _)

theorem mergeLeftAttr_wf {t dim : Table} {key attr : String} {o : Table}
    (hwf : t.WF) (hnot : attr ∉ t.cols) (h : mergeLeftAttr t dim key attr = .ok o) :
    o.WF := by
  have hcols := mergeLeftAttr_cols_of_not_mem hnot h
  intro r2 hr2
  obtain ⟨r, hr, v, rfl⟩ := mergeLeftAttr_rows_mem h r2 hr2
  rw [hcols]
  simp [hwf r hr]

theorem mergeLeftAttr_cell_keep {t dim : Table} {key attr c : String} {o : Table}
    (hwf : t.WF) (hnot : attr ∉ t.cols) (hm : c ∈ t.cols)
    (h : mergeLeftAttr t dim key attr = .ok o) :
    ∀ r ∈ t.rows, ∀ v : Val, cellAt o.cols (r ++ [v]) c = cellAt t.cols r c := by
  intro r hr v
  rw [mergeLeftAttr_cols_of_not_mem hnot h, cellAt_cols_ext hm,
    cellAt_append_row (le_of_eq (hwf r hr).symm)]

theorem build_report_ok_inv {cc sc ints : Table} {rep : List ReportRow}
    (h : build_report cc sc ints = .ok rep) :
    ∃ t3 t4 : Table,
      mergeLeftAttr (withCall (withMonth ints)) cc "contact_center_id"
        "contact_center_name" = .ok t3 ∧
      mergeLeftAttr t3 sc "category_id" "department" = .ok t4 ∧
      "interaction_id" ∈ t4.cols ∧ rep = aggregate t4 := by
  rw [build_report] at h
  by_cases h1 : "interaction_end" ∉ ints.cols
  · rw [if_pos h1] at h
    exact Except.noConfusion h
  rw [if_neg h1] at h
  by_cases h2 : "channel" ∉ (withMonth ints).cols
  · rw [if_pos h2] at h
    exact Except.noConfusion h
  rw [if_neg h2] at h
  rcases hm1 : mergeLeftAttr (withCall (withMonth ints)) cc "contact_center_id"
      "contact_center_name" with e1 | t3
  · rw [hm1, exceptBind_error] at h
    exact Except.noConfusion h
  rw [hm1, exceptBind_ok] at h
  rcases hm2 : mergeLeftAttr t3 sc "category_id" "department" with e2 | t4
  · rw [hm2, exceptBind_error] at h
    exact Except.noConfusion h
  rw [hm2, exceptBind_ok] at h
  by_cases g1 : "month" ∉ t4.cols
  · rw [if_pos g1] at h
    exact Except.noConfusion h
  rw [if_neg g1] at h
  by_cases g2 : "contact_center_name" ∉ t4.cols
  · rw [if_pos g2] at h
    exact Except.noConfusion h
  rw [if_neg g2] at h
  by_cases g3 : "department" ∉ t4.cols
  · rw [if_pos g3] at h
    exact Except.noConfusion h
  rw [if_neg g3] at h
  by_cases g4 : "interaction_id" ∉ t4.cols
  · rw [if_pos g4] at h
    exact Except.noConfusion h
  rw [if_neg g4] at h
  by_cases g5 : "is_call" ∉ t4.cols
  · rw [if_pos g5] at h
    exact Except.noConfusion h
  rw [if_neg g5] at h
  by_cases g6 : "call_duration_minutes" ∉ t4.cols
  · rw [if_pos g6] at h
    exact Except.noConfusion h
  rw [if_neg g6] at h
  rw [show (pure (aggregate t4) : Except ReportError (List ReportRow)) = .ok (aggregate t4)
    from rfl, Except.ok.injEq] at h
  exact ⟨t3, t4, rfl, hm2, not_not.mp g4, h.symm⟩

/-- Concrete tables for the C7 counterexample: the contact-centers
dimension carries the join key C1 twice, so the left merge duplicates
the single fact row and the report counts it twice. -/
def c7cc : Table := ⟨["contact_center_id", "contact_center_name"],
  [[.s "C1", .s "Boston"], [.s "C1", .s "Boston2"]]⟩

def c7sc : Table := ⟨["category_id", "department"], [[.s "K1", .s "Billing"]]⟩

def c7int : Table := ⟨["interaction_id", "interaction_end", "channel",
  "contact_center_id", "category_id", "call_duration_minutes"],
  [[.s "I1", .s "2025-02-01T10:00:00", .s "Phone", .s "C1", .s "K1", .i 5]]⟩

/-- C7 counterexample: a fact table with one row whose report sums
`total_interactions` to 2, because a duplicated dimension key inflates
the left join. -/
theorem C7_counterexample :
    c7int.rows.length = 1 ∧
    (build_report c7cc c7sc c7int).map
      (fun rep => (rep.map (fun x => x.total_interactions)).sum) = .ok 2 :=
  ⟨by rfl, by rfl⟩

/-- C7 (amended): the sum of `total_interactions` over the report rows
equals the fact-table row count, provided additionally that each
dimension's join-key column is duplicate-free (a duplicated key repeats
fact rows in the left merge), that no `interaction_id` cell is null
(pandas `count` skips nulls), and that the fact table does not already
carry the joined attribute columns (otherwise pandas suffixes them and
the groupby raises).  Rectangularity (`Table.WF`) is assumed, as for
any real DataFrame. -/
theorem C7_aggregation_total_amended
    {contact_centers service_categories interactions : Table} {rep : List ReportRow}
    (hwf : interactions.WF)
    (hccN : (colVals contact_centers "contact_center_id").Nodup)
    (hscN : (colVals service_categories "category_id").Nodup)
    (hids : ∀ v ∈ colVals interactions "interaction_id", v ≠ .na)
    (hccn : "contact_center_name" ∉ interactions.cols)
    (hdep : "department" ∉ interactions.cols)
    (h : build_report contact_centers service_categories interactions = .ok rep) :
    (rep.map (fun x => x.total_interactions)).sum = interactions.rows.length := by
  obtain ⟨t3, t4, hm1, hm2, hiid4, hrep⟩ := build_report_ok_inv h
  have hlenM : ((colVals interactions "interaction_end").map monthVal).length =
      interactions.rows.length := by
    simp [colVals]
  have hlenC : ((colVals (withMonth interactions) "channel").map isCallVal).length =
      (withMonth interactions).rows.length := by
    simp [colVals]
  have hwf1 : (withMonth interactions).WF := setCol_wf_of_wf hwf hlenM
  have hwf2 : (withCall (withMonth interactions)).WF := setCol_wf_of_wf hwf1 hlenC
  have hccn2 : "contact_center_name" ∉ (withCall (withMonth interactions)).cols := by
    intro hmem
    exact hccn ((setCol_mem_cols (by decide)).mp ((setCol_mem_cols (by decide)).mp hmem))
  have hdep2 : "department" ∉ (withCall (withMonth interactions)).cols := by
    intro hmem
    exact hdep ((setCol_mem_cols (by decide)).mp ((setCol_mem_cols (by decide)).mp hmem))
  have hcols3 : t3.cols = (withCall (withMonth interactions)).cols ++
      ["contact_center_name"] := mergeLeftAttr_cols_of_not_mem hccn2 hm1
  have hdep3 : "department" ∉ t3.cols := by
    rw [hcols3]
    intro hmem
    rcases List.mem_append.mp hmem with hx | hx
    · exact hdep2 hx
    · exact absurd (List.mem_singleton.mp hx) (by decide)
  have hcols4 : t4.cols = t3.cols ++ ["department"] :=
    mergeLeftAttr_cols_of_not_mem hdep3 hm2
  have hiid2 : "interaction_id" ∈ (withCall (withMonth interactions)).cols := by
    rw [hcols4, hcols3] at hiid4
    rcases List.mem_append.mp hiid4 with hx | hx
    · rcases List.mem_append.mp hx with hy | hy
      · exact hy
      · exact absurd (List.mem_singleton.mp hy) (by decide)
    · exact absurd (List.mem_singleton.mp hx) (by decide)
  have hiid3 : "interaction_id" ∈ t3.cols := by
    rw [hcols3]
    exact List.mem_append_left _ hiid2
  have hiid1 : "interaction_id" ∈ (withMonth interactions).cols :=
    (setCol_mem_cols (by decide)).mp hiid2
  have hiid0 : "interaction_id" ∈ interactions.cols :=
    (setCol_mem_cols (by decide)).mp hiid1
  have hvals2 : colVals (withCall (withMonth interactions)) "interaction_id" =
      colVals interactions "interaction_id" :=
    (colVals_setCol_keep hwf1 hiid1 hlenC (by decide)).trans
      (colVals_setCol_keep hwf hiid0 hlenM (by decide))
  have hna2 : ∀ r ∈ (withCall (withMonth interactions)).rows,
      cellAt (withCall (withMonth interactions)).cols r "interaction_id" ≠ .na := by
    intro r hr
    have hmem : cellAt (withCall (withMonth interactions)).cols r "interaction_id" ∈
        colVals (withCall (withMonth interactions)) "interaction_id" :=
      List.mem_map_of_mem _ hr
    rw [hvals2] at hmem
    exact hids _ hmem
  have hna3 : ∀ r ∈ t3.rows, cellAt t3.cols r "interaction_id" ≠ .na := by
    intro r2 hr2
    obtain ⟨r, hr, v, rfl⟩ := mergeLeftAttr_rows_mem hm1 r2 hr2
    rw [mergeLeftAttr_cell_keep hwf2 hccn2 hiid2 hm1 r hr v]
    exact hna2 r hr
  have hwf3 : t3.WF := mergeLeftAttr_wf hwf2 hccn2 hm1
  have hna4 : ∀ r ∈ t4.rows, cellAt t4.cols r "interaction_id" ≠ .na := by
    intro r2 hr2
    obtain ⟨r, hr, v, rfl⟩ := mergeLeftAttr_rows_mem hm2 r2 hr2
    rw [mergeLeftAttr_cell_keep hwf3 hdep3 hiid3 hm2 r hr v]
    exact hna3 r hr
  rw [hrep, aggregate_total hna4, mergeLeftAttr_rows_length hscN hm2,
    mergeLeftAttr_rows_length hccN hm1]
  show (setCol (withMonth interactions) "is_call"
      ((colVals (withMonth interactions) "channel").map isCallVal)).rows.length =
    interactions.rows.length
  rw [setCol_rows_length hlenC]
  show (setCol interactions "month"
      ((colVals interactions "interaction_end").map monthVal)).rows.length =
    interactions.rows.length
  rw [setCol_rows_length hlenM]

/-- Concrete tables for the C7 witness: the spec scenario with two phone
interactions in 2025-02 and duplicate-free dimensions. -/
def w7cc : Table := ⟨["contact_center_id", "contact_center_name"], [[.s "C1", .s "Boston"]]⟩

def w7sc : Table := ⟨["category_id", "department"], [[.s "K1", .s "Billing"]]⟩

def w7int : Table := ⟨["interaction_id", "interaction_end", "channel",
  "contact_center_id", "category_id", "call_duration_minutes"],
  [[.s "I1", .s "2025-02-01T10:00:00", .s "Phone", .s "C1", .s "K1", .i 5],
   [.s "I2", .s "2025-02-03T11:00:00", .s "phone", .s "C1", .s "K1", .i 7]]⟩

/-- C7 witness: the spec scenario satisfies the amended hypotheses, and
the report's `total_interactions` sums to the fact table's row count. -/
theorem C7_witness :
    w7int.WF ∧
    (colVals w7cc "contact_center_id").Nodup ∧
    build_report w7cc w7sc w7int = .ok
      [{ month := .s "2025-02", contact_center_name := .s "Boston",
         department := .s "Billing", total_interactions := 2,
         total_calls := 2, total_call_duration := 12 }] ∧
    ([({ month := .s "2025-02", contact_center_name := .s "Boston",
         department := .s "Billing", total_interactions := 2,
         total_calls := 2, total_call_duration := 12 } : ReportRow)].map
      (fun x => x.total_interactions)).sum = w7int.rows.length :=
  ⟨by decide, by decide, by rfl,
    @C7_aggregation_total_amended w7cc w7sc w7int
      [{ month := .s "2025-02", contact_center_name := .s "Boston",
         department := .s "Billing", total_interactions := 2,
         total_calls := 2, total_call_duration := 12 }]
      (by decide) (by decide) (by decide) (by decide) (by decide) (by decide) (by rfl)⟩

end Oddball
